import Mathlib

namespace Taskdantic

/-! ## Definitions -/

/-!
Verification development for the taskdantic UDA synchronization engine.

The definitions below are a shallow embedding of the Python modules
`taskdantic/uda_sync.py` and `taskdantic/uda_export.py`.  File text is
modelled as `List Char` (Python `str` at the granularity the engine
manipulates it).  Python sets are modelled as lists with membership
semantics; Python dicts keyed by insertion order are modelled as
association lists; `dict` equality (insertion-order insensitive) is
modelled explicitly where the source relies on it.  Urgency coefficients
(Python floats, used only for equality comparison and printing here)
are modelled as integers.
-/

set_option maxRecDepth 40000

abbrev Str := List Char

/-- Whitespace characters stripped by Python `str.strip` (ASCII range,
which is all the engine ever produces). -/
def pyIsSpace (c : Char) : Bool :=
  c = ' ' || c = '\t' || c = '\n' || c = '\r' || c = '\x0b' || c = '\x0c'

/-- Python `str.lstrip()`. -/
def lstrip (l : Str) : Str := l.dropWhile pyIsSpace

/-- Python `str.rstrip()`. -/
def rstrip (l : Str) : Str := (l.reverse.dropWhile pyIsSpace).reverse

/-- Python `str.strip()`. -/
def strip (l : Str) : Str := lstrip (rstrip l)

/-- Index of the first occurrence of `p` in `l`; Python `str.find`
(with `none` for the -1 result). -/
def firstOcc (p : Str) : Str → Option Nat
  | [] => if p.isPrefixOf [] then some 0 else none
  | c :: rest =>
    if p.isPrefixOf (c :: rest) then some 0 else (firstOcc p rest).map (· + 1)

/-- Split on the newline character (both parts of a leading/trailing
newline are kept, like `String.split`). -/
def splitNL : Str → List Str
  | [] => [[]]
  | c :: rest =>
    if c = '\n' then [] :: splitNL rest
    else
      match splitNL rest with
      | [] => [[c]]
      | s :: ss => (c :: s) :: ss

/-- Python `str.splitlines()` restricted to `\n` separators (the only
separator the engine emits): a trailing newline yields no final empty
line, and the empty string has no lines. -/
def pySplitlines (t : Str) : List Str :=
  if t = [] then []
  else if t.getLast? = some '\n' then (splitNL t).dropLast
  else splitNL t

/-! ## Data model: `UdaSpec` (uda_export.py) -/

structure UdaSpec where
  name : String
  type : String
  label : Option String
  values : Option (List String)
  urgency : Option (List (String × Int))
  deriving DecidableEq

/-- Error raised by `merge_uda_specs`: the Python `ValueError` message
embeds the conflicting name and the reprs of both specs; we model the
payload structurally. -/
structure ConflictError where
  name : String
  firstSpec : UdaSpec
  secondSpec : UdaSpec
  deriving DecidableEq

/-! ## parse_existing_uda_names (uda_sync.py) -/

def udaDot : Str := "uda.".data

def dotTypeEq : Str := ".type=".data

/-- Name extracted from a single taskrc line, following the loop body of
`parse_existing_uda_names`: strip the line, skip blanks and comments,
require the `uda.` head and a `.type=` occurrence somewhere in the line,
then take the stripped text before the first `.type=` of the remainder
(the whole remainder when the only `.type=` occurrence straddles the
`uda.` head). -/
def parsedNameOfLine (raw : Str) : Option Str :=
  let line := strip raw
  if line = [] then none
  else if line.head? = some '#' then none
  else if udaDot.isPrefixOf line && (firstOcc dotTypeEq line).isSome then
    let rest := line.drop 4
    let name :=
      strip (match firstOcc dotTypeEq rest with
        | some k => rest.take k
        | none => rest)
    if name = [] then none else some name
  else none

/-- The set of UDA names declared in a taskrc text (Python returns a
`set`; we return the list of per-line hits, used only through
membership). -/
def parse_existing_uda_names (t : Str) : List Str :=
  (pySplitlines t).filterMap parsedNameOfLine

/-! ## merge_uda_specs (uda_export.py) -/

/-- Python `dict` equality: same keys, same values, insertion order
ignored (keys are unique in any dict the source builds). -/
def dictEq (a b : List (String × Int)) : Bool :=
  a.all (fun p => List.lookup p.1 b == some p.2) &&
  b.all (fun p => List.lookup p.1 a == some p.2)

def urgencyEq : Option (List (String × Int)) → Option (List (String × Int)) → Bool
  | none, none => true
  | some a, some b => dictEq a b
  | _, _ => false

/-- The field-by-field comparison `(prev.type, prev.label, prev.values,
prev.urgency) == (s.type, s.label, s.values, s.urgency)` performed by
`merge_uda_specs` (list equality for `values`, dict equality for
`urgency`). -/
def specCompat (a b : UdaSpec) : Bool :=
  a.type == b.type && a.label == b.label && a.values == b.values &&
    urgencyEq a.urgency b.urgency

/-- Registry lookup by name (the registry dict is an association list in
insertion order, keys being the spec names). -/
def lookupName (n : String) (r : List UdaSpec) : Option UdaSpec :=
  r.find? (fun s => s.name == n)

/-- The two nested loops of `merge_uda_specs`, processing the
concatenation of all spec lists in order against the registry built so
far. -/
def mergeList : List UdaSpec → List UdaSpec → Except ConflictError (List UdaSpec)
  | [], r => .ok r
  | s :: rest, r =>
    match lookupName s.name r with
    | none => mergeList rest (r ++ [s])
    | some prev =>
      if specCompat prev s then mergeList rest r
      else .error ⟨s.name, prev, s⟩

def merge_uda_specs (specLists : List (List UdaSpec)) : Except ConflictError (List UdaSpec) :=
  mergeList specLists.flatten []

/-! ## render_taskrc_udas (uda_export.py) -/

/-- Code-point lexicographic string order, the comparison Python uses
for `sorted` on strings. -/
def strLeB : List Char → List Char → Bool
  | [], _ => true
  | _ :: _, [] => false
  | c :: as, d :: bs =>
    if c.toNat < d.toNat then true
    else if d.toNat < c.toNat then false
    else strLeB as bs

/-- Insertion into a name-sorted list, keeping existing equal keys after
the inserted one (stable, as Python `sorted` is). -/
def insertByName (s : UdaSpec) : List UdaSpec → List UdaSpec
  | [] => [s]
  | t :: rest =>
    if strLeB s.name.data t.name.data then s :: t :: rest
    else t :: insertByName s rest

/-- Python `sorted(specs, key=lambda x: x.name)`. -/
def sortByName : List UdaSpec → List UdaSpec
  | [] => []
  | s :: rest => insertByName s (sortByName rest)

/-- The lines contributed by one spec, in emission order.  The `if
s.label:` / `if s.values:` / `if s.urgency:` guards in the source are
Python truthiness tests: an empty string, list or dict is skipped just
like an absent one. -/
def specLines (s : UdaSpec) : List Str :=
  (udaDot ++ s.name.data ++ dotTypeEq ++ s.type.data) ::
    ((match s.label with
      | some l => if l = "" then [] else [udaDot ++ s.name.data ++ ".label=".data ++ l.data]
      | none => []) ++
     (match s.values with
      | some vs =>
        if vs = [] then []
        else [udaDot ++ s.name.data ++ ".values=".data ++ (String.intercalate "," vs).data]
      | none => []) ++
     (match s.urgency with
      | some us =>
        if us = [] then []
        else us.map (fun p =>
          "urgency.uda.".data ++ s.name.data ++ ".".data ++ p.1.data ++
            ".coefficient=".data ++ (toString p.2).data)
      | none => []))

/-- The flat line list built by the rendering loop, an empty line after
each spec. -/
def flatLines (specs : List UdaSpec) : List Str :=
  (sortByName specs).flatMap (fun s => specLines s ++ [[]])

/-- Python `"\n".join`. -/
def joinNL : List Str → Str
  | [] => []
  | [l] => l
  | l :: rest => l ++ '\n' :: joinNL rest

def render_taskrc_udas (specs : List UdaSpec) : Str :=
  rstrip (joinNL (flatLines specs)) ++ ['\n']

/-! ## upsert_uda_block (uda_sync.py) -/

def BEGIN_MARKER : Str := "# BEGIN TASKDANTIC UDAS".data

def END_MARKER : Str := "# END TASKDANTIC UDAS".data

def GEN_COMMENT : Str := "# Generated from Pydantic Task models. Do not edit by hand.".data

def managedBlock (body : Str) : Str :=
  BEGIN_MARKER ++ '\n' :: (GEN_COMMENT ++ '\n' :: '\n' ::
    (body ++ '\n' :: (END_MARKER ++ ['\n'])))

def endsWithNL (t : Str) : Bool := t.getLast? = some '\n'

/-- Appending branch of `upsert_uda_block` (no valid marker pair). -/
def appendBlock (t managed : Str) : Str :=
  t ++ (if endsWithNL t then ['\n'] else ['\n', '\n']) ++ managed

def upsert_uda_block (t body : Str) : Str :=
  let managed := managedBlock body
  match firstOcc BEGIN_MARKER t, firstOcc END_MARKER t with
  | some s, some e =>
    if s < e then
      rstrip (t.take s) ++ '\n' :: '\n' ::
        (managed ++ '\n' :: lstrip (t.drop (e + END_MARKER.length)))
    else appendBlock t managed
  | _, _ => appendBlock t managed

/-! ## sync_taskrc_udas (uda_sync.py)

Pure model of one sync run on a file text: module import and type
discovery happen upstream and are summarised by the list of extracted
spec lists; file IO is summarised by the returned text and the
write-performed flag (`updated != original` is exactly the condition
guarding the write in the source). -/

inductive SyncError where
  | conflict (e : ConflictError)
  | drift (names : List String)
  deriving DecidableEq

structure SyncResult where
  text : Str
  warnings : List String
  wrote : Bool
  deriving DecidableEq

def insertStr (x : String) : List String → List String
  | [] => [x]
  | y :: rest => if strLeB x.data y.data then x :: y :: rest else y :: insertStr x rest

def sortStrings : List String → List String
  | [] => []
  | x :: rest => insertStr x (sortStrings rest)

/-- Deduplication (Python `set` has no duplicates; membership is all
that is observable after sorting). -/
def dedupStr : List String → List String
  | [] => []
  | x :: rest => if x ∈ rest then dedupStr rest else x :: dedupStr rest

/-- Python `sorted(set(...))`. -/
def sortedNub (l : List String) : List String := sortStrings (dedupStr l)

def sync_taskrc_udas (original : Str) (specLists : List (List UdaSpec))
    (strict : Bool) : Except SyncError SyncResult :=
  let existing := (parse_existing_uda_names original).map String.mk
  match merge_uda_specs specLists with
  | .error e => .error (.conflict e)
  | .ok registry =>
    let generated := registry.map UdaSpec.name
    let missing := sortedNub (existing.filter (fun n => !generated.contains n))
    if strict && !missing.isEmpty then .error (.drift missing)
    else
      let body := render_taskrc_udas registry
      let updated := upsert_uda_block original body
      .ok ⟨updated, missing, updated != original⟩

/-! ## extract_uda_specs (uda_export.py)

The reflected shape of a record type.  A field annotation is modelled by
`PyType`; `optionalT` is `Optional[T]` (a `Union` with exactly one
non-`None` member, the case `_unwrap_optional` unwraps); a `Union` with
several non-`None` members is left in place by the source and then hits
the same fallthrough branches as any unrecognised type, so it is
modelled by `otherT`.  `annotatedT` is a (flattened, hence single-level)
`Annotated` wrapper. -/

inductive PyType where
  | enumT (values : List String)
  | litT (values : List String)
  | datetimeT
  | timedeltaT
  | intT
  | floatT
  | strT
  | noneT
  | otherT (name : String)
  | optionalT (inner : PyType)
  | annotatedT (inner : PyType)
  deriving DecidableEq

def unwrapAnnotated : PyType → PyType
  | .annotatedT t => t
  | t => t

def unwrapOptional (tp : PyType) : PyType :=
  match unwrapAnnotated tp with
  | .optionalT inner => unwrapAnnotated inner
  | t => t

def UDA_TYPE_STRING : String := "string"

def UDA_TYPE_NUMERIC : String := "numeric"

def UDA_TYPE_DATE : String := "date"

def UDA_TYPE_DURATION : String := "duration"

def inferTaskwarriorType (tp : PyType) : String :=
  match unwrapOptional tp with
  | .enumT _ => UDA_TYPE_STRING
  | .litT _ => UDA_TYPE_STRING
  | .datetimeT => UDA_TYPE_DATE
  | .timedeltaT => UDA_TYPE_DURATION
  | .intT => UDA_TYPE_NUMERIC
  | .floatT => UDA_TYPE_NUMERIC
  | _ => UDA_TYPE_STRING

def inferValues (tp : PyType) : Option (List String) :=
  match unwrapOptional tp with
  | .enumT vs => some vs
  | .litT vs => some vs
  | _ => none

/-- The `taskwarrior` entry of a field's `json_schema_extra` (absent
keys are `none`). -/
structure TaskwarriorExtra where
  type : Option String
  label : Option String
  values : Option (List String)
  urgency : Option (List (String × Int))
  deriving DecidableEq

structure FieldInfo where
  ann : PyType
  taskwarrior : TaskwarriorExtra
  deriving DecidableEq

/-- A record type as `extract_uda_specs` sees it: the resolved core
field name set (`core_field_names()` or the base fallback), the
computed field names, and the declared fields in declaration order. -/
structure RecordType where
  coreFieldNames : List String
  computedFieldNames : List String
  fields : List (String × FieldInfo)
  deriving DecidableEq

/-- Python `x or y` for an optional string `x`: an absent or empty
override falls through to the default. -/
def pyOrStr (o : Option String) (d : String) : String :=
  match o with
  | some s => if s = "" then d else s
  | none => d

/-- Python `x or y` for an optional list `x`: an absent or empty
override falls through to the default. -/
def pyOrValues (o : Option (List String)) (d : Option (List String)) :
    Option (List String) :=
  match o with
  | some vs => if vs = [] then d else some vs
  | none => d

def startsWithUnderscore (n : String) : Bool :=
  match n.data with
  | '_' :: _ => true
  | _ => false

def extract_uda_specs (rt : RecordType) : List UdaSpec :=
  rt.fields.filterMap (fun nf =>
    if rt.coreFieldNames.contains nf.1 || rt.computedFieldNames.contains nf.1 ||
        startsWithUnderscore nf.1 then none
    else
      some ⟨nf.1,
            pyOrStr nf.2.taskwarrior.type (inferTaskwarriorType nf.2.ann),
            nf.2.taskwarrior.label,
            pyOrValues nf.2.taskwarrior.values (inferValues nf.2.ann),
            nf.2.taskwarrior.urgency⟩)

/-! ## discover_task_models (uda_sync.py)

The process-wide subtype graph: vertices are the `n` live classes, each
with its direct subclass list and defining module.  `_iter_all_subclasses`
runs a stack-based walk with a seen set; the Python stack pops from the
end and appends children, which is modelled with the top of the stack at
the head and children pushed reversed (same pops in the same order). -/

structure ClassGraph (n : Nat) where
  children : Fin n → List (Fin n)
  moduleOf : Fin n → String

def subclassWalk (n : Nat) (children : Fin n → List (Fin n)) :
    List (Fin n) → Finset (Fin n) → List (Fin n)
  | [], _ => []
  | v :: rest, seen =>
    if v ∈ seen then subclassWalk n children rest seen
    else v :: subclassWalk n children ((children v).reverse ++ rest) (insert v seen)
termination_by stack seen => (n - seen.card, stack.length)
decreasing_by
  · apply Prod.Lex.right; simp
  · apply Prod.Lex.left
    have h3 : (insert v seen).card = seen.card + 1 :=
      Finset.card_insert_of_not_mem (by assumption)
    have h2 : (insert v seen).card ≤ Fintype.card (Fin n) := Finset.card_le_univ _
    simp only [Fintype.card_fin] at h2
    omega

def iter_all_subclasses {n : Nat} (g : ClassGraph n) (base : Fin n) : List (Fin n) :=
  subclassWalk n g.children (g.children base).reverse ∅

/-- `discover_task_models`: every walked subtype, filtered by module
when a module set is given (`isinstance(sub, type)` is always true for
entries of `__subclasses__()`). -/
def discover_task_models {n : Nat} (g : ClassGraph n) (base : Fin n)
    (allowedModules : Option (List String)) : List (Fin n) :=
  (iter_all_subclasses g base).filter (fun v =>
    match allowedModules with
    | none => true
    | some mods => mods.contains (g.moduleOf v))

/-! ## Infrastructure: occurrence lemmas for `firstOcc` -/

/-- No window of `l` starting at any index carries `p` as a prefix. -/
def noOccIn (p l : Str) : Prop := ∀ i, ¬ p <+: l.drop i

/-- The opening two lines of the managed block (begin marker plus
generated-comment line). -/
def genSeg : Str := BEGIN_MARKER ++ '\n' :: (GEN_COMMENT ++ ['\n'])

/-- Relative index of the end marker inside a managed block whose body
is `b`. -/
def endOff (b : Str) : Nat := genSeg.length + 1 + (b.length + 1)

/-- The text of a managed block before its end marker. -/
def managedHead (b : Str) : Str := genSeg ++ '\n' :: (b ++ '\n' :: END_MARKER)

/-- Normal form reached by every upsert through the replace branch:
trimmed leading user content, the managed block, and trimmed trailing
user content. -/
def upsertNF (w post b : Str) : Str :=
  rstrip w ++ '\n' :: '\n' :: (managedBlock b ++ '\n' :: post)

/-! ## Well-formedness predicates and stabilization -/

/-- The file text contains neither marker. -/
def noMarkers (t : Str) : Prop :=
  firstOcc BEGIN_MARKER t = none ∧ firstOcc END_MARKER t = none

/-- The file text contains both markers, the first begin marker before
the first end marker. -/
def validPair (t : Str) : Prop :=
  ∃ s e, firstOcc BEGIN_MARKER t = some s ∧ firstOcc END_MARKER t = some e ∧ s < e

/-! ## Sync run observers -/

/-- File text after one sync run (unchanged when the run raises). -/
def syncText (t : Str) (specLists : List (List UdaSpec)) (strict : Bool) : Str :=
  match sync_taskrc_udas t specLists strict with
  | .ok r => r.text
  | .error _ => t

/-- Whether one sync run performed a write. -/
def syncWrote (t : Str) (specLists : List (List UdaSpec)) (strict : Bool) : Bool :=
  match sync_taskrc_udas t specLists strict with
  | .ok r => r.wrote
  | .error _ => false

/-! ## Claim C1 -/

def sprintSpec : UdaSpec := ⟨"sprint", "string", some "Sprint", none, none⟩

def exSpecLists : List (List UdaSpec) := [[sprintSpec]]

def exTaskrc : Str := "tag.color=blue\n".data

/-! ## Claim C4 -/

def c4taskrc : Str := "user\n# BEGIN TASKDANTIC UDAS\n# END TASKDANTIC UDAS\nrest\n".data

def c4body : Str := "uda.sprint.type=string\n".data

/-- Well-formedness of the urgency table: unique keys (a Python dict
invariant). -/
def urgencyWF (s : UdaSpec) : Prop :=
  match s.urgency with
  | none => True
  | some us => (us.map Prod.fst).Nodup

instance (s : UdaSpec) : Decidable (urgencyWF s) := by
  unfold urgencyWF
  exact match s.urgency with
  | none => inferInstanceAs (Decidable True)
  | some us => inferInstanceAs (Decidable _)

/-! ## Claim C2 -/

def pointsNum : UdaSpec := ⟨"points", "numeric", none, none, none⟩

def pointsStr : UdaSpec := ⟨"points", "string", none, none, none⟩

/-! ## Claim C6 -/

/-- Python dataclass equality on `UdaSpec` (dict equality for the
urgency field). -/
def pySpecEq (a b : UdaSpec) : Bool := a.name == b.name && specCompat a b

def optionSpecEq : Option UdaSpec → Option UdaSpec → Prop
  | none, none => True
  | some a, some b => pySpecEq a b = true
  | _, _ => False

def c9graph : ClassGraph 3 :=
  ⟨fun v => if v = 0 then [1, 2] else if v = 1 then [2] else [],
   fun v => if v = 1 then "mod_a" else "mod_b"⟩

def plainField : FieldInfo := ⟨PyType.strT, ⟨none, none, none, none⟩⟩

def c10rt : RecordType :=
  ⟨["id"], [], [("_hidden", plainField), ("sprint", plainField)]⟩

/-! ## Claim C3 -/

/-- Claim-side inference table, written from the specification: resolve
the semantic kind and the allowed values together, in the documented
priority order, after unwrapping optional wrappers. -/
def inferKindValues (tp : PyType) : String × Option (List String) :=
  match unwrapOptional tp with
  | .enumT vs => (UDA_TYPE_STRING, some vs)
  | .litT vs => (UDA_TYPE_STRING, some vs)
  | .datetimeT => (UDA_TYPE_DATE, none)
  | .timedeltaT => (UDA_TYPE_DURATION, none)
  | .intT => (UDA_TYPE_NUMERIC, none)
  | .floatT => (UDA_TYPE_NUMERIC, none)
  | _ => (UDA_TYPE_STRING, none)

/-- Claim-side spec construction (amended): overrides win verbatim when
present, except that a present-but-empty `type` or `values` override
falls through to inference (Python truthiness). -/
def specFromSpecSide (n : String) (f : FieldInfo) : UdaSpec :=
  let kv := inferKindValues f.ann
  let kind :=
    match f.taskwarrior.type with
    | some t => if t = "" then kv.1 else t
    | none => kv.1
  let vals :=
    match f.taskwarrior.values with
    | some vs => if vs = [] then kv.2 else some vs
    | none => kv.2
  ⟨n, kind, f.taskwarrior.label, vals, f.taskwarrior.urgency⟩

def noTw : TaskwarriorExtra := ⟨none, none, none, none⟩

def c3field : FieldInfo := ⟨PyType.enumT ["S23", "S24"], ⟨none, none, some [], none⟩⟩

def c3rt : RecordType := ⟨[], [], [("phase", c3field)]⟩

/-! ## Claim C7 -/

/-- Claim-side block joiner: one blank line between consecutive spec
blocks. -/
def joinBlankSep : List Str → Str
  | [] => []
  | [x] => x
  | x :: rest => x ++ '\n' :: '\n' :: joinBlankSep rest

/-- A line that is nonempty and does not end in whitespace. -/
def cleanTailB (l : Str) : Bool :=
  match l.reverse with
  | [] => false
  | c :: _ => !pyIsSpace c

def flatOf (l : List UdaSpec) : List Str := l.flatMap (fun s => specLines s ++ [[]])

def c7spec : UdaSpec := ⟨"alpha", "string", some "", none, none⟩

def c7a : UdaSpec := ⟨"beta", "numeric", some "B", none, some [("H", 5)]⟩

def c7b : UdaSpec := ⟨"alpha", "string", some "A", some ["x", "y"], none⟩

/-! ## Claim C8 -/

/-- Claim-side reading of C8, as stated: a name `N` is declared when
some raw line of the file is literally `uda.<N>.type=<rest>`. -/
def claimDeclaredLit (t N : Str) : Bool :=
  (pySplitlines t).any (fun raw => (udaDot ++ N ++ dotTypeEq).isPrefixOf raw)

/-- Declarative per-line characterization of the parser (amended):
after whitespace-stripping, the line is `uda.` ++ M ++ `.type=` ++ rest
with the exhibited `.type=` occurrence the first one in the remainder,
and the declared name is `strip M` when non-empty; or, degenerately,
the line is `uda.type=...` with no `.type=` in the remainder (the only
`.type=` occurrence overlaps the `uda.` head), and the whole stripped
remainder is the name. -/
def lineDeclares (raw N : Str) : Prop :=
  (∃ M rest, strip raw = udaDot ++ (M ++ (dotTypeEq ++ rest)) ∧
    firstOcc dotTypeEq (M ++ (dotTypeEq ++ rest)) = some M.length ∧
    N = strip M ∧ N ≠ []) ∨
  (∃ rest, strip raw = udaDot ++ ("type=".data ++ rest) ∧
    firstOcc dotTypeEq ("type=".data ++ rest) = none ∧
    N = strip ("type=".data ++ rest) ∧ N ≠ [])

/-- The drift set computed by a sync run: names declared in the file
that the registry does not generate, deduplicated and sorted. -/
def driftNames (t : Str) (m : List UdaSpec) : List String :=
  sortedNub (((parse_existing_uda_names t).map String.mk).filter
    (fun n => !(m.map UdaSpec.name).contains n))

/-- Cleanliness of one spec for parsing back its own rendered lines: a
stripped non-empty name, the first `.type=` of the type line remainder
at the name boundary, newline-free whitespace-clean lines, and no
`.type=` smuggled into label, values or weighting lines. -/
def specCleanForParse (s : UdaSpec) : Prop :=
  strip s.name.data = s.name.data ∧
  s.name.data ≠ [] ∧
  firstOcc dotTypeEq (s.name.data ++ (dotTypeEq ++ s.type.data))
    = some s.name.data.length ∧
  (∀ ln ∈ specLines s, (∀ c ∈ ln, c ≠ '\n') ∧ cleanTailB ln = true) ∧
  (∀ ln ∈ (specLines s).drop 1, firstOcc dotTypeEq ln = none)

instance (s : UdaSpec) : Decidable (specCleanForParse s) := by
  unfold specCleanForParse
  infer_instance

/-- Interleaved line list of the rendered block: the lines of each spec
with one empty separator line between consecutive specs. -/
def flatSep : List UdaSpec → List Str
  | [] => []
  | [s] => specLines s
  | s :: rest => specLines s ++ ([] :: flatSep rest)

def c5spec : UdaSpec := ⟨"sprint", "string", some "Boo.type=z", none, none⟩

def c5taskrc : Str := "uda.sprint.label=Boo.type=z\n".data

/-! ## Theorems -/

/-! ## Infrastructure: strip lemmas -/

theorem dropWhile_dropWhile (p : Char → Bool) (l : Str) :
    List.dropWhile p (List.dropWhile p l) = List.dropWhile p l := by
  induction l with
  | nil => rfl
  | cons c rest ih =>
    by_cases h : p c
    · simp [List.dropWhile_cons, h, ih]
    · simp [List.dropWhile_cons, h]

theorem lstrip_idem (x : Str) : lstrip (lstrip x) = lstrip x :=
  dropWhile_dropWhile pyIsSpace x

theorem rstrip_idem (x : Str) : rstrip (rstrip x) = rstrip x := by
  simp [rstrip, dropWhile_dropWhile]

theorem rstrip_append_space (x : Str) (c : Char) (hc : pyIsSpace c) :
    rstrip (x ++ [c]) = rstrip x := by
  simp [rstrip, List.dropWhile_cons, hc]

theorem lstrip_cons_space (x : Str) (c : Char) (hc : pyIsSpace c) :
    lstrip (c :: x) = lstrip x := by
  simp [lstrip, List.dropWhile_cons, hc]

theorem rstrip_pref (x : Str) : rstrip x <+: x := by
  have h := List.dropWhile_suffix (l := x.reverse) pyIsSpace
  have h2 : (List.dropWhile pyIsSpace x.reverse).reverse <+: x.reverse.reverse :=
    List.reverse_prefix.mpr (by simpa using h)
  simpa [rstrip] using h2

theorem rstrip_decomp (x : Str) :
    ∃ w, x = rstrip x ++ w ∧ ∀ c ∈ w, pyIsSpace c := by
  refine ⟨(List.takeWhile pyIsSpace x.reverse).reverse, ?_, ?_⟩
  · rw [rstrip, ← List.reverse_append, List.takeWhile_append_dropWhile,
      List.reverse_reverse]
  · intro c hc
    rw [List.mem_reverse] at hc
    exact List.mem_takeWhile_imp hc

theorem lstrip_decomp (x : Str) :
    ∃ w, x = w ++ lstrip x ∧ ∀ c ∈ w, pyIsSpace c := by
  refine ⟨List.takeWhile pyIsSpace x, ?_, ?_⟩
  · exact (List.takeWhile_append_dropWhile (p := pyIsSpace) (l := x)).symm
  · intro c hc
    exact List.mem_takeWhile_imp hc

theorem rstrip_eq_self_of_rev (x : Str) (c : Char) (t : Str)
    (hrev : x.reverse = c :: t) (hc : ¬ pyIsSpace c) : rstrip x = x := by
  have : rstrip x = (List.dropWhile pyIsSpace (c :: t)).reverse := by rw [rstrip, hrev]
  rw [this, List.dropWhile_cons, if_neg (by simpa using hc), ← hrev, List.reverse_reverse]

theorem isPrefixOf_eq_true (p l : Str) : p.isPrefixOf l = true ↔ p <+: l :=
  List.isPrefixOf_iff_prefix

theorem firstOcc_nil (p : Str) (hp : p ≠ []) : firstOcc p [] = none := by
  rw [firstOcc]
  have : ¬ p.isPrefixOf ([] : Str) = true := by
    rw [isPrefixOf_eq_true]
    intro h
    exact hp (List.prefix_nil.mp h)
  simp [this]

theorem firstOcc_of_prefix (p l : Str) (h : p <+: l) : firstOcc p l = some 0 := by
  cases l with
  | nil => rw [firstOcc, if_pos ((isPrefixOf_eq_true p []).mpr h)]
  | cons c rest => rw [firstOcc, if_pos ((isPrefixOf_eq_true p (c :: rest)).mpr h)]

theorem firstOcc_eq_none_iff (p l : Str) : firstOcc p l = none ↔ noOccIn p l := by
  induction l with
  | nil =>
    constructor
    · intro h i hpre
      rw [List.drop_nil] at hpre
      rw [firstOcc, if_pos ((isPrefixOf_eq_true p []).mpr hpre)] at h
      exact Option.noConfusion h
    · intro h
      by_cases hp : p.isPrefixOf ([] : Str)
      · exact absurd ((isPrefixOf_eq_true p []).mp hp) (by simpa using h 0)
      · rw [firstOcc, if_neg (by simpa using hp)]
  | cons c rest ih =>
    by_cases hp : p.isPrefixOf (c :: rest)
    · constructor
      · intro h
        rw [firstOcc, if_pos hp] at h
        exact Option.noConfusion h
      · intro h
        exact absurd ((isPrefixOf_eq_true p (c :: rest)).mp hp) (by simpa using h 0)
    · rw [firstOcc, if_neg (by simpa using hp)]
      constructor
      · intro h i hpre
        have hrest : firstOcc p rest = none := by
          cases hfo : firstOcc p rest with
          | none => rfl
          | some k => rw [hfo] at h; exact Option.noConfusion h
        match i with
        | 0 =>
          exact hp ((isPrefixOf_eq_true p (c :: rest)).mpr (by simpa using hpre))
        | Nat.succ j =>
          exact (ih.mp hrest) j (by simpa using hpre)
      · intro h
        have : firstOcc p rest = none := ih.mpr (fun i hpre => h (i + 1) (by simpa using hpre))
        rw [this]
        rfl

theorem firstOcc_eq_some_spec (p l : Str) (k : Nat) (h : firstOcc p l = some k) :
    p <+: l.drop k ∧ ∀ i, i < k → ¬ p <+: l.drop i := by
  induction l generalizing k with
  | nil =>
    by_cases hp : p.isPrefixOf ([] : Str)
    · rw [firstOcc, if_pos hp] at h
      obtain rfl : (0 : Nat) = k := Option.some.inj h
      exact ⟨by simpa using (isPrefixOf_eq_true p []).mp hp, fun i hi => absurd hi (by omega)⟩
    · rw [firstOcc, if_neg (by simpa using hp)] at h
      exact Option.noConfusion h
  | cons c rest ih =>
    by_cases hp : p.isPrefixOf (c :: rest)
    · rw [firstOcc, if_pos hp] at h
      obtain rfl : (0 : Nat) = k := Option.some.inj h
      exact ⟨by simpa using (isPrefixOf_eq_true _ _).mp hp, fun i hi => absurd hi (by omega)⟩
    · rw [firstOcc, if_neg (by simpa using hp)] at h
      cases hfo : firstOcc p rest with
      | none => rw [hfo] at h; exact Option.noConfusion h
      | some j =>
        rw [hfo] at h
        obtain rfl : j + 1 = k := Option.some.inj h
        obtain ⟨h1, h2⟩ := ih j hfo
        refine ⟨by simpa using h1, ?_⟩
        intro i hi
        match i with
        | 0 =>
          intro hpre
          exact hp ((isPrefixOf_eq_true _ _).mpr (by simpa using hpre))
        | Nat.succ m =>
          intro hpre
          exact h2 m (by omega) (by simpa using hpre)

theorem prefix_of_prefix_take (p x : Str) (n i : Nat)
    (h : p <+: (x.take n).drop i) : p <+: x.drop i := by
  have h1 : (x.take n).drop i <+: x.drop i := by
    rw [List.drop_take]
    exact List.take_prefix _ _
  exact h.trans h1

theorem noOccIn_of_pref (p m l : Str) (hm : m <+: l) (h : noOccIn p l) :
    noOccIn p m := by
  intro i hpre
  have hmt := List.prefix_iff_eq_take.mp hm
  rw [hmt] at hpre
  exact h i (prefix_of_prefix_take p l m.length i hpre)

theorem noOccIn_take_le (p t : Str) (s k : Nat) (hp : p ≠ [])
    (h : firstOcc p t = some k) (hsk : s ≤ k) : noOccIn p (t.take s) := by
  intro i hpre
  rcases Nat.lt_or_ge i s with hi | hi
  · exact (firstOcc_eq_some_spec p t k h).2 i (by omega) (prefix_of_prefix_take p t s i hpre)
  · have hnil : (t.take s).drop i = [] := by
      apply List.drop_eq_nil_of_le
      calc (t.take s).length ≤ s := List.length_take_le s t
        _ ≤ i := hi
    rw [hnil] at hpre
    exact hp (List.prefix_nil.mp hpre)

theorem prefix_append_nl (p x y : Str) (hnl : '\n' ∉ p)
    (h : p <+: x ++ '\n' :: y) : p <+: x := by
  by_cases hle : p.length ≤ x.length
  · have ht := List.prefix_iff_eq_take.mp h
    rw [List.take_append_eq_append_take] at ht
    have h0 : p.length - x.length = 0 := by omega
    rw [h0, List.take_zero, List.append_nil] at ht
    rw [ht]
    exact List.take_prefix _ _
  · exfalso
    have hlen : x.length < p.length := by omega
    have h2 := h.getElem hlen
    rw [List.getElem_append_right (le_refl x.length)] at h2
    simp at h2
    exact hnl (h2 ▸ List.getElem_mem hlen)

theorem occ_split_nl (p x y : Str) (i : Nat) (hnl : '\n' ∉ p)
    (h : p <+: (x ++ '\n' :: y).drop i) :
    (i ≤ x.length ∧ p <+: x.drop i) ∨
      (x.length + 1 ≤ i ∧ p <+: y.drop (i - (x.length + 1))) := by
  rcases Nat.lt_or_ge i (x.length + 1) with hi | hi
  · left
    have hi' : i ≤ x.length := by omega
    rw [List.drop_append_eq_append_drop, Nat.sub_eq_zero_of_le hi', List.drop_zero] at h
    exact ⟨hi', prefix_append_nl p (x.drop i) y hnl h⟩
  · right
    refine ⟨hi, ?_⟩
    rw [List.drop_append_eq_append_drop, List.drop_eq_nil_of_le (by omega),
      List.nil_append] at h
    have hd : ('\n' :: y).drop (i - x.length) = y.drop (i - x.length - 1) := by
      have : i - x.length = (i - x.length - 1) + 1 := by omega
      rw [this]
      simp
    rw [hd] at h
    have : i - x.length - 1 = i - (x.length + 1) := by omega
    rwa [this] at h

theorem noOccIn_shift (p : Str) (c : Char) (x : Str) (h : noOccIn p (c :: x)) :
    noOccIn p x := by
  intro i hpre
  exact h (i + 1) (by simpa using hpre)

theorem firstOcc_append_nl (p x y : Str) (hnl : '\n' ∉ p) (hp : p ≠ [])
    (hx : noOccIn p x) :
    firstOcc p (x ++ '\n' :: y) = (firstOcc p y).map (· + (x.length + 1)) := by
  induction x with
  | nil =>
    rw [List.nil_append, firstOcc]
    have hnp : ¬ p.isPrefixOf ('\n' :: y) = true := by
      rw [isPrefixOf_eq_true]
      intro hcontra
      match p, hp with
      | c :: p', _ =>
        have : c = '\n' := by
          have := hcontra.getElem (by simp : 0 < (c :: p').length)
          simpa using this
        exact hnl (this ▸ List.mem_cons_self c p')
    rw [if_neg hnp]
    cases firstOcc p y <;> simp
  | cons c x' ih =>
    rw [List.cons_append, firstOcc]
    have hnp : ¬ p.isPrefixOf (c :: (x' ++ '\n' :: y)) = true := by
      rw [isPrefixOf_eq_true]
      intro hcontra
      have h2 := prefix_append_nl p (c :: x') y hnl (by simpa using hcontra)
      exact hx 0 (by simpa using h2)
    rw [if_neg hnp, ih (noOccIn_shift p c x' hx)]
    cases firstOcc p y with
    | none => simp
    | some k => simp; omega

/-! ## Marker facts and managed-block structure -/

theorem begin_ne_nil : BEGIN_MARKER ≠ [] := by decide

theorem end_ne_nil : END_MARKER ≠ [] := by decide

theorem nl_not_mem_begin : '\n' ∉ BEGIN_MARKER := by decide

theorem nl_not_mem_end : '\n' ∉ END_MARKER := by decide

theorem managed_decomp (b : Str) :
    managedBlock b = genSeg ++ '\n' :: (b ++ '\n' :: (END_MARKER ++ ['\n'])) := by
  simp [managedBlock, genSeg]

theorem managed_decomp' (b post : Str) :
    managedBlock b ++ '\n' :: post
      = genSeg ++ '\n' :: (b ++ '\n' :: (END_MARKER ++ ('\n' :: '\n' :: post))) := by
  simp [managedBlock, genSeg]

theorem noOcc_end_genSeg : noOccIn END_MARKER genSeg :=
  (firstOcc_eq_none_iff END_MARKER genSeg).mp (by decide)

theorem noOcc_begin_of_firstOcc_none (t : Str) (h : firstOcc BEGIN_MARKER t = none) :
    noOccIn BEGIN_MARKER t := (firstOcc_eq_none_iff _ _).mp h

theorem noOcc_end_of_firstOcc_none (t : Str) (h : firstOcc END_MARKER t = none) :
    noOccIn END_MARKER t := (firstOcc_eq_none_iff _ _).mp h

theorem firstOcc_end_shape (b r : Str) (hb : noOccIn END_MARKER b) :
    firstOcc END_MARKER (genSeg ++ '\n' :: (b ++ '\n' :: (END_MARKER ++ r)))
      = some (endOff b) := by
  rw [firstOcc_append_nl END_MARKER genSeg _ nl_not_mem_end end_ne_nil noOcc_end_genSeg,
    firstOcc_append_nl END_MARKER b _ nl_not_mem_end end_ne_nil hb,
    firstOcc_of_prefix END_MARKER _ (List.prefix_append _ _)]
  simp [endOff]
  omega

theorem firstOcc_begin_managed (b post : Str) :
    firstOcc BEGIN_MARKER (managedBlock b ++ post) = some 0 := by
  apply firstOcc_of_prefix
  rw [managedBlock]
  rw [List.append_assoc]
  exact List.prefix_append _ _

theorem managedHead_length (b : Str) :
    (managedHead b).length = endOff b + END_MARKER.length := by
  simp [managedHead, endOff]
  omega

theorem managed_decomp_head (b : Str) :
    managedBlock b = managedHead b ++ ['\n'] := by
  simp [managedBlock, genSeg, managedHead]

/-! ## The upsert branches -/

theorem upsert_of_none (t b : Str) (htB : firstOcc BEGIN_MARKER t = none) :
    upsert_uda_block t b = appendBlock t (managedBlock b) := by
  rw [upsert_uda_block, htB]

theorem upsert_of_valid (t b : Str) (s e : Nat)
    (hs : firstOcc BEGIN_MARKER t = some s) (he : firstOcc END_MARKER t = some e)
    (hlt : s < e) :
    upsert_uda_block t b
      = rstrip (t.take s) ++ '\n' :: '\n' ::
          (managedBlock b ++ '\n' :: lstrip (t.drop (e + END_MARKER.length))) := by
  rw [upsert_uda_block, hs, he]
  simp [hlt]

theorem noOccIn_append_nl_single (p x : Str) (hnl : '\n' ∉ p) (hp : p ≠ [])
    (hx : noOccIn p x) : noOccIn p (x ++ ['\n']) := by
  intro i hpre
  have h := occ_split_nl p x [] i hnl hpre
  rcases h with ⟨_, h2⟩ | ⟨_, h2⟩
  · exact hx i h2
  · rw [List.drop_nil] at h2
    exact hp (List.prefix_nil.mp h2)

theorem firstOcc_in_NF_begin (w post b : Str)
    (hwB : noOccIn BEGIN_MARKER w) :
    firstOcc BEGIN_MARKER (upsertNF w post b) = some ((rstrip w).length + 2) := by
  have hshape : upsertNF w post b
      = (rstrip w ++ ['\n']) ++ '\n' :: (managedBlock b ++ '\n' :: post) := by
    simp [upsertNF]
  rw [hshape, firstOcc_append_nl BEGIN_MARKER _ _ nl_not_mem_begin begin_ne_nil
    (noOccIn_append_nl_single BEGIN_MARKER (rstrip w) nl_not_mem_begin begin_ne_nil
      (noOccIn_of_pref BEGIN_MARKER (rstrip w) w (rstrip_pref w) hwB)),
    firstOcc_begin_managed b ('\n' :: post)]
  simp

theorem firstOcc_in_NF_end (w post b : Str)
    (hwE : noOccIn END_MARKER w) (hbE : noOccIn END_MARKER b) :
    firstOcc END_MARKER (upsertNF w post b)
      = some (endOff b + ((rstrip w).length + 2)) := by
  have hshape : upsertNF w post b
      = (rstrip w ++ ['\n']) ++ '\n' :: (managedBlock b ++ '\n' :: post) := by
    simp [upsertNF]
  rw [hshape, firstOcc_append_nl END_MARKER _ _ nl_not_mem_end end_ne_nil
    (noOccIn_append_nl_single END_MARKER (rstrip w) nl_not_mem_end end_ne_nil
      (noOccIn_of_pref END_MARKER (rstrip w) w (rstrip_pref w) hwE)),
    managed_decomp' b post, firstOcc_end_shape b _ hbE]
  simp

theorem firstOcc_begin_managed_plain (b : Str) :
    firstOcc BEGIN_MARKER (managedBlock b) = some 0 := by
  simpa using firstOcc_begin_managed b []

theorem firstOcc_end_managed_plain (b : Str) (hbE : noOccIn END_MARKER b) :
    firstOcc END_MARKER (managedBlock b) = some (endOff b) := by
  rw [managed_decomp]
  exact firstOcc_end_shape b ['\n'] hbE

theorem endOff_pos (b : Str) : 0 < endOff b := by
  simp [endOff]

theorem upsert_NF_fixed (w post b : Str)
    (hwB : noOccIn BEGIN_MARKER w) (hwE : noOccIn END_MARKER w)
    (hbE : noOccIn END_MARKER b)
    (hpost : lstrip post = post) :
    upsert_uda_block (upsertNF w post b) b = upsertNF w post b := by
  have hB := firstOcc_in_NF_begin w post b hwB
  have hE := firstOcc_in_NF_end w post b hwE hbE
  have hlt : (rstrip w).length + 2 < endOff b + ((rstrip w).length + 2) := by
    have := endOff_pos b
    omega
  rw [upsert_of_valid _ b _ _ hB hE hlt]
  have hshape2 : upsertNF w post b
      = (rstrip w ++ ['\n', '\n']) ++ (managedBlock b ++ '\n' :: post) := by
    simp [upsertNF]
  have htake : (upsertNF w post b).take ((rstrip w).length + 2)
      = rstrip w ++ ['\n', '\n'] := by
    rw [hshape2]
    have hlen : (rstrip w ++ ['\n', '\n']).length = (rstrip w).length + 2 := by simp
    rw [← hlen, List.take_left]
  have hrs : rstrip (rstrip w ++ ['\n', '\n']) = rstrip w := by
    have h1 : rstrip w ++ ['\n', '\n'] = (rstrip w ++ ['\n']) ++ ['\n'] := by simp
    rw [h1, rstrip_append_space _ '\n' (by decide), rstrip_append_space _ '\n' (by decide),
      rstrip_idem]
  have hshape3 : upsertNF w post b
      = ((rstrip w ++ ['\n', '\n']) ++ managedHead b) ++ '\n' :: '\n' :: post := by
    rw [hshape2, managed_decomp_head]
    simp
  have hdrop : (upsertNF w post b).drop
      (endOff b + ((rstrip w).length + 2) + END_MARKER.length) = '\n' :: '\n' :: post := by
    rw [hshape3]
    have hlen : ((rstrip w ++ ['\n', '\n']) ++ managedHead b).length
        = endOff b + ((rstrip w).length + 2) + END_MARKER.length := by
      simp [managedHead_length]
      omega
    rw [← hlen, List.drop_left]
  rw [htake, hrs, hdrop, lstrip_cons_space _ '\n' (by decide),
    lstrip_cons_space _ '\n' (by decide), hpost]
  rfl

theorem upsert_append_then (t b : Str)
    (htB : noOccIn BEGIN_MARKER t) (htE : noOccIn END_MARKER t)
    (hbE : noOccIn END_MARKER b) :
    upsert_uda_block (appendBlock t (managedBlock b)) b = upsertNF t [] b := by
  by_cases hNL : endsWithNL t
  · have hshape : appendBlock t (managedBlock b) = t ++ '\n' :: managedBlock b := by
      simp [appendBlock, hNL]
    have hB : firstOcc BEGIN_MARKER (appendBlock t (managedBlock b))
        = some (t.length + 1) := by
      rw [hshape, firstOcc_append_nl BEGIN_MARKER t _ nl_not_mem_begin begin_ne_nil htB,
        firstOcc_begin_managed_plain]
      simp
    have hE : firstOcc END_MARKER (appendBlock t (managedBlock b))
        = some (endOff b + (t.length + 1)) := by
      rw [hshape, firstOcc_append_nl END_MARKER t _ nl_not_mem_end end_ne_nil htE,
        firstOcc_end_managed_plain b hbE]
      simp
    have hlt : t.length + 1 < endOff b + (t.length + 1) := by
      have := endOff_pos b
      omega
    rw [upsert_of_valid _ b _ _ hB hE hlt]
    have htake : (appendBlock t (managedBlock b)).take (t.length + 1) = t ++ ['\n'] := by
      rw [hshape]
      have h1 : t ++ '\n' :: managedBlock b = (t ++ ['\n']) ++ managedBlock b := by simp
      have hlen : (t ++ ['\n']).length = t.length + 1 := by simp
      rw [h1, ← hlen, List.take_left]
    have hdrop : (appendBlock t (managedBlock b)).drop
        (endOff b + (t.length + 1) + END_MARKER.length) = ['\n'] := by
      rw [hshape, managed_decomp_head]
      have h1 : t ++ '\n' :: (managedHead b ++ ['\n'])
          = ((t ++ ['\n']) ++ managedHead b) ++ ['\n'] := by simp
      have hlen : ((t ++ ['\n']) ++ managedHead b).length
          = endOff b + (t.length + 1) + END_MARKER.length := by
        simp [managedHead_length]
        omega
      rw [h1, ← hlen, List.drop_left]
    rw [htake, hdrop, rstrip_append_space _ '\n' (by decide)]
    rfl
  · have hshape : appendBlock t (managedBlock b)
        = (t ++ ['\n']) ++ '\n' :: managedBlock b := by
      simp [appendBlock, hNL]
    have htB1 : noOccIn BEGIN_MARKER (t ++ ['\n']) :=
      noOccIn_append_nl_single BEGIN_MARKER t nl_not_mem_begin begin_ne_nil htB
    have htE1 : noOccIn END_MARKER (t ++ ['\n']) :=
      noOccIn_append_nl_single END_MARKER t nl_not_mem_end end_ne_nil htE
    have hB : firstOcc BEGIN_MARKER (appendBlock t (managedBlock b))
        = some (t.length + 2) := by
      rw [hshape, firstOcc_append_nl BEGIN_MARKER _ _ nl_not_mem_begin begin_ne_nil htB1,
        firstOcc_begin_managed_plain]
      simp
    have hE : firstOcc END_MARKER (appendBlock t (managedBlock b))
        = some (endOff b + (t.length + 2)) := by
      rw [hshape, firstOcc_append_nl END_MARKER _ _ nl_not_mem_end end_ne_nil htE1,
        firstOcc_end_managed_plain b hbE]
      simp
    have hlt : t.length + 2 < endOff b + (t.length + 2) := by
      have := endOff_pos b
      omega
    rw [upsert_of_valid _ b _ _ hB hE hlt]
    have htake : (appendBlock t (managedBlock b)).take (t.length + 2)
        = t ++ ['\n', '\n'] := by
      rw [hshape]
      have h1 : (t ++ ['\n']) ++ '\n' :: managedBlock b
          = (t ++ ['\n', '\n']) ++ managedBlock b := by simp
      have hlen : (t ++ ['\n', '\n']).length = t.length + 2 := by simp
      rw [h1, ← hlen, List.take_left]
    have hdrop : (appendBlock t (managedBlock b)).drop
        (endOff b + (t.length + 2) + END_MARKER.length) = ['\n'] := by
      rw [hshape, managed_decomp_head]
      have h1 : (t ++ ['\n']) ++ '\n' :: (managedHead b ++ ['\n'])
          = ((t ++ ['\n', '\n']) ++ managedHead b) ++ ['\n'] := by simp
      have hlen : ((t ++ ['\n', '\n']) ++ managedHead b).length
          = endOff b + (t.length + 2) + END_MARKER.length := by
        simp [managedHead_length]
        omega
      rw [h1, ← hlen, List.drop_left]
    rw [htake, hdrop]
    have hrs : rstrip (t ++ ['\n', '\n']) = rstrip t := by
      have h1 : t ++ ['\n', '\n'] = (t ++ ['\n']) ++ ['\n'] := by simp
      rw [h1, rstrip_append_space _ '\n' (by decide), rstrip_append_space _ '\n' (by decide)]
    rw [hrs]
    rfl

theorem upsert_valid_stable (t b : Str) (hv : validPair t)
    (hbE : firstOcc END_MARKER b = none) :
    upsert_uda_block (upsert_uda_block t b) b = upsert_uda_block t b := by
  obtain ⟨s, e, hs, he, hlt⟩ := hv
  rw [upsert_of_valid t b s e hs he hlt]
  have hNF : rstrip (t.take s) ++ '\n' :: '\n' ::
      (managedBlock b ++ '\n' :: lstrip (t.drop (e + END_MARKER.length)))
      = upsertNF (t.take s) (lstrip (t.drop (e + END_MARKER.length))) b := rfl
  rw [hNF]
  exact upsert_NF_fixed _ _ b
    (noOccIn_take_le BEGIN_MARKER t s s begin_ne_nil hs (le_refl s))
    (noOccIn_take_le END_MARKER t s e end_ne_nil he (Nat.le_of_lt hlt))
    (noOcc_end_of_firstOcc_none b hbE)
    (lstrip_idem _)

theorem upsert_noMarkers_second (t b : Str) (hnm : noMarkers t)
    (hbE : firstOcc END_MARKER b = none) :
    upsert_uda_block (upsert_uda_block t b) b = upsertNF t [] b := by
  obtain ⟨hB, hE⟩ := hnm
  rw [upsert_of_none t b hB]
  exact upsert_append_then t b (noOcc_begin_of_firstOcc_none t hB)
    (noOcc_end_of_firstOcc_none t hE) (noOcc_end_of_firstOcc_none b hbE)

theorem upsert_stabilizes (t b : Str) (hwf : noMarkers t ∨ validPair t)
    (hbE : firstOcc END_MARKER b = none) :
    upsert_uda_block (upsert_uda_block (upsert_uda_block t b) b) b
      = upsert_uda_block (upsert_uda_block t b) b := by
  rcases hwf with hnm | hv
  · rw [upsert_noMarkers_second t b hnm hbE]
    exact upsert_NF_fixed t [] b (noOcc_begin_of_firstOcc_none t hnm.1)
      (noOcc_end_of_firstOcc_none t hnm.2) (noOcc_end_of_firstOcc_none b hbE) rfl
  · rw [upsert_valid_stable t b hv hbE]
    exact upsert_valid_stable t b hv hbE

theorem sync_ok_of_merge (t : Str) (sl : List (List UdaSpec)) (m : List UdaSpec)
    (hm : merge_uda_specs sl = .ok m) :
    sync_taskrc_udas t sl false
      = .ok ⟨upsert_uda_block t (render_taskrc_udas m),
             sortedNub (((parse_existing_uda_names t).map String.mk).filter
               (fun n => !(m.map UdaSpec.name).contains n)),
             upsert_uda_block t (render_taskrc_udas m) != t⟩ := by
  rw [sync_taskrc_udas, hm]
  rfl

theorem syncText_of_merge (t : Str) (sl : List (List UdaSpec)) (m : List UdaSpec)
    (hm : merge_uda_specs sl = .ok m) :
    syncText t sl false = upsert_uda_block t (render_taskrc_udas m) := by
  rw [syncText, sync_ok_of_merge t sl m hm]

theorem syncWrote_of_merge (t : Str) (sl : List (List UdaSpec)) (m : List UdaSpec)
    (hm : merge_uda_specs sl = .ok m) :
    syncWrote t sl false = (upsert_uda_block t (render_taskrc_udas m) != t) := by
  rw [syncWrote, sync_ok_of_merge t sl m hm]

/-- C1, counterexample: on a marker-free file the first sync appends the
managed block, and the second sync run rewrites the file again (it adds
a blank line while normalizing the block boundary), so it does perform a
write: running sync twice is not idempotent as claimed. -/
theorem c1_counterexample :
    syncWrote (syncText exTaskrc exSpecLists false) exSpecLists false = true ∧
    syncText (syncText exTaskrc exSpecLists false) exSpecLists false
      ≠ syncText exTaskrc exSpecLists false := by
  constructor
  · rfl
  · decide

/-- C1 (amended): with a fixed set of discovered record types whose
merge succeeds and whose rendered body contains no end marker, on any
well-formed target file sync reaches a fixed point after at most two
runs: the third run produces a file identical to the second run's output
and performs no write; moreover if the file already contains a begin
marker preceding an end marker, already the second run produces an
identical file and performs no write. -/
theorem c1_sync_stabilizes (t : Str) (sl : List (List UdaSpec)) (m : List UdaSpec)
    (hm : merge_uda_specs sl = .ok m)
    (hwf : noMarkers t ∨ validPair t)
    (hbE : firstOcc END_MARKER (render_taskrc_udas m) = none) :
    (syncText (syncText (syncText t sl false) sl false) sl false
        = syncText (syncText t sl false) sl false ∧
      syncWrote (syncText (syncText t sl false) sl false) sl false = false) ∧
    (validPair t →
      syncText (syncText t sl false) sl false = syncText t sl false ∧
        syncWrote (syncText t sl false) sl false = false) := by
  have e1 : syncText t sl false = upsert_uda_block t (render_taskrc_udas m) :=
    syncText_of_merge t sl m hm
  have e2 : syncText (syncText t sl false) sl false
      = upsert_uda_block (upsert_uda_block t (render_taskrc_udas m))
          (render_taskrc_udas m) := by
    rw [e1, syncText_of_merge _ sl m hm]
  have e3 : syncText (syncText (syncText t sl false) sl false) sl false
      = upsert_uda_block (upsert_uda_block (upsert_uda_block t (render_taskrc_udas m))
          (render_taskrc_udas m)) (render_taskrc_udas m) := by
    rw [e2, syncText_of_merge _ sl m hm]
  have hstab := upsert_stabilizes t (render_taskrc_udas m) hwf hbE
  constructor
  · constructor
    · rw [e3, e2, hstab]
    · rw [e2, syncWrote_of_merge _ sl m hm, hstab]
      simp
  · intro hv
    have hstab2 := upsert_valid_stable t (render_taskrc_udas m) hv hbE
    constructor
    · rw [e2, e1, hstab2]
    · rw [e1, syncWrote_of_merge _ sl m hm, hstab2]
      simp

/-- C1, witness: the amended theorem applied to a concrete marker-free
file and a single discovered spec. -/
theorem c1_sync_stabilizes_witness :
    merge_uda_specs exSpecLists = .ok [sprintSpec] ∧
    noMarkers exTaskrc ∧
    firstOcc END_MARKER (render_taskrc_udas [sprintSpec]) = none ∧
    syncText (syncText (syncText exTaskrc exSpecLists false) exSpecLists false)
        exSpecLists false
      = syncText (syncText exTaskrc exSpecLists false) exSpecLists false :=
  ⟨rfl, ⟨rfl, rfl⟩, rfl,
    (c1_sync_stabilizes exTaskrc exSpecLists [sprintSpec] rfl
      (Or.inl ⟨rfl, rfl⟩) rfl).1.1⟩

/-- C4, counterexample: the content before the begin marker is the five
bytes of `user` plus one newline before the sync but `user` plus two
newlines after it (the upsert right-trims the user prefix and inserts a
normalized blank line), so it is not byte-identical. -/
theorem c4_counterexample :
    firstOcc BEGIN_MARKER c4taskrc = some 5 ∧
    firstOcc BEGIN_MARKER (upsert_uda_block c4taskrc c4body) = some 6 ∧
    (upsert_uda_block c4taskrc c4body).take 6 ≠ c4taskrc.take 5 := by
  refine ⟨rfl, rfl, ?_⟩
  decide

/-- C4 (amended): for well-formed input, user content survives a sync up
to blank-line normalization at the block boundary: a marker-free file is
kept byte-identical as a prefix of the result, and for a file with a
valid marker pair the result is exactly the right-trimmed before-content,
one blank line, the fresh managed block, and the left-trimmed
after-content, where trimming removes only whitespace characters. -/
theorem c4_preservation (t b : Str) :
    (noMarkers t → t <+: upsert_uda_block t b) ∧
    (∀ s e, firstOcc BEGIN_MARKER t = some s → firstOcc END_MARKER t = some e →
      s < e →
      ∃ w₁ w₂, (∀ c ∈ w₁, pyIsSpace c) ∧ (∀ c ∈ w₂, pyIsSpace c) ∧
        t.take s = rstrip (t.take s) ++ w₁ ∧
        t.drop (e + END_MARKER.length)
          = w₂ ++ lstrip (t.drop (e + END_MARKER.length)) ∧
        upsert_uda_block t b
          = rstrip (t.take s) ++ '\n' :: '\n' ::
              (managedBlock b ++ '\n' :: lstrip (t.drop (e + END_MARKER.length)))) := by
  constructor
  · intro hnm
    rw [upsert_of_none t b hnm.1, appendBlock]
    exact (List.prefix_append t _).trans (List.prefix_append _ _)
  · intro s e hs he hlt
    obtain ⟨w₁, hw1, hsp1⟩ := rstrip_decomp (t.take s)
    obtain ⟨w₂, hw2, hsp2⟩ := lstrip_decomp (t.drop (e + END_MARKER.length))
    exact ⟨w₁, w₂, hsp1, hsp2, hw1, hw2, upsert_of_valid t b s e hs he hlt⟩

/-- C4, witness: the amended theorem applied to a concrete file with a
valid marker pair. -/
theorem c4_preservation_witness :
    firstOcc BEGIN_MARKER c4taskrc = some 5 ∧
    firstOcc END_MARKER c4taskrc = some 29 ∧
    (∃ w₁ w₂, (∀ c ∈ w₁, pyIsSpace c) ∧ (∀ c ∈ w₂, pyIsSpace c) ∧
      c4taskrc.take 5 = rstrip (c4taskrc.take 5) ++ w₁ ∧
      c4taskrc.drop (29 + END_MARKER.length)
        = w₂ ++ lstrip (c4taskrc.drop (29 + END_MARKER.length)) ∧
      upsert_uda_block c4taskrc c4body
        = rstrip (c4taskrc.take 5) ++ '\n' :: '\n' ::
            (managedBlock c4body ++ '\n' ::
              lstrip (c4taskrc.drop (29 + END_MARKER.length)))) :=
  ⟨rfl, rfl, (c4_preservation c4taskrc c4body).2 5 29 rfl rfl (by omega)⟩

/-! ## Dict equality and spec compatibility -/

theorem mem_of_lookup_some (k : String) (v : Int) (l : List (String × Int))
    (h : List.lookup k l = some v) : (k, v) ∈ l := by
  induction l with
  | nil => simp [List.lookup] at h
  | cons p rest ih =>
    rw [List.lookup] at h
    by_cases hk : k == p.1
    · simp [hk] at h
      have hk2 : k = p.1 := by simpa using hk
      have hkv : (k, v) = p := by
        cases p
        simp_all
      rw [hkv]
      exact List.mem_cons_self p rest
    · simp [hk] at h
      exact List.mem_cons_of_mem p (ih h)

theorem lookup_of_mem_nodup (l : List (String × Int))
    (h : (l.map Prod.fst).Nodup) (p : String × Int) (hp : p ∈ l) :
    List.lookup p.1 l = some p.2 := by
  induction l with
  | nil => simp at hp
  | cons q rest ih =>
    rcases List.mem_cons.mp hp with rfl | hmem
    · rw [List.lookup]
      simp
    · rw [List.lookup]
      have hnd : (rest.map Prod.fst).Nodup ∧ q.1 ∉ rest.map Prod.fst := by
        rw [List.map_cons, List.nodup_cons] at h
        exact ⟨h.2, h.1⟩
      have hne : p.1 ≠ q.1 := by
        intro heq
        exact hnd.2 (heq ▸ List.mem_map_of_mem Prod.fst hmem)
      have hbeq : (p.1 == q.1) = false := by simpa using hne
      simp [hbeq]
      exact ih hnd.1 hmem

theorem dictEq_iff (a b : List (String × Int)) :
    dictEq a b = true ↔
      (∀ p ∈ a, List.lookup p.1 b = some p.2) ∧
      (∀ p ∈ b, List.lookup p.1 a = some p.2) := by
  simp [dictEq, List.all_eq_true]

theorem dictEq_symm (a b : List (String × Int)) (h : dictEq a b = true) :
    dictEq b a = true := by
  rw [dictEq_iff] at h ⊢
  exact ⟨h.2, h.1⟩

theorem dictEq_trans (a b c : List (String × Int)) (h1 : dictEq a b = true)
    (h2 : dictEq b c = true) : dictEq a c = true := by
  rw [dictEq_iff] at h1 h2 ⊢
  constructor
  · intro p hp
    have hb : (p.1, p.2) ∈ b := mem_of_lookup_some p.1 p.2 b (h1.1 p hp)
    exact h2.1 (p.1, p.2) hb
  · intro p hp
    have hb : (p.1, p.2) ∈ b := mem_of_lookup_some p.1 p.2 b (h2.2 p hp)
    exact h1.2 (p.1, p.2) hb

theorem dictEq_refl (a : List (String × Int)) (h : (a.map Prod.fst).Nodup) :
    dictEq a a = true := by
  rw [dictEq_iff]
  exact ⟨lookup_of_mem_nodup a h, lookup_of_mem_nodup a h⟩

theorem urgencyEq_symm (a b : Option (List (String × Int)))
    (h : urgencyEq a b = true) : urgencyEq b a = true := by
  cases a <;> cases b <;> simp [urgencyEq] at h ⊢
  exact dictEq_symm _ _ h

theorem urgencyEq_trans (a b c : Option (List (String × Int)))
    (h1 : urgencyEq a b = true) (h2 : urgencyEq b c = true) :
    urgencyEq a c = true := by
  cases a <;> cases b <;> cases c <;> simp [urgencyEq] at h1 h2 ⊢
  exact dictEq_trans _ _ _ h1 h2

theorem specCompat_iff (a b : UdaSpec) :
    specCompat a b = true ↔
      a.type = b.type ∧ a.label = b.label ∧ a.values = b.values ∧
        urgencyEq a.urgency b.urgency = true := by
  simp [specCompat, and_assoc]

theorem specCompat_symm (a b : UdaSpec) (h : specCompat a b = true) :
    specCompat b a = true := by
  rw [specCompat_iff] at h ⊢
  exact ⟨h.1.symm, h.2.1.symm, h.2.2.1.symm, urgencyEq_symm _ _ h.2.2.2⟩

theorem specCompat_trans (a b c : UdaSpec) (h1 : specCompat a b = true)
    (h2 : specCompat b c = true) : specCompat a c = true := by
  rw [specCompat_iff] at h1 h2 ⊢
  exact ⟨h1.1.trans h2.1, h1.2.1.trans h2.2.1, h1.2.2.1.trans h2.2.2.1,
    urgencyEq_trans _ _ _ h1.2.2.2 h2.2.2.2⟩

theorem specCompat_refl (s : UdaSpec) (h : urgencyWF s) :
    specCompat s s = true := by
  rw [specCompat_iff]
  refine ⟨rfl, rfl, rfl, ?_⟩
  unfold urgencyWF at h
  cases hu : s.urgency with
  | none => simp [urgencyEq]
  | some us =>
    simp [urgencyEq]
    exact dictEq_refl us (by rw [hu] at h; exact h)

/-! ## Merge invariants -/

theorem mergeList_cons_none (s : UdaSpec) (t r : List UdaSpec)
    (hl : lookupName s.name r = none) :
    mergeList (s :: t) r = mergeList t (r ++ [s]) := by
  rw [mergeList, hl]

theorem mergeList_cons_compat (s : UdaSpec) (t r : List UdaSpec) (prev : UdaSpec)
    (hl : lookupName s.name r = some prev) (hc : specCompat prev s = true) :
    mergeList (s :: t) r = mergeList t r := by
  rw [mergeList, hl]
  exact if_pos hc

theorem mergeList_cons_conflict (s : UdaSpec) (t r : List UdaSpec) (prev : UdaSpec)
    (hl : lookupName s.name r = some prev) (hc : ¬ specCompat prev s = true) :
    mergeList (s :: t) r = .error ⟨s.name, prev, s⟩ := by
  rw [mergeList, hl]
  exact if_neg hc

theorem find?_singleton (p : UdaSpec → Bool) (s : UdaSpec) :
    List.find? p [s] = if p s then some s else none := by
  rw [List.find?_cons]
  cases hp : p s <;> simp [hp]

theorem lookupName_append_single (n : String) (r : List UdaSpec) (s : UdaSpec) :
    lookupName n (r ++ [s])
      = (lookupName n r).or (if s.name == n then some s else none) := by
  rw [lookupName, List.find?_append, lookupName, find?_singleton]

theorem mem_of_lookupName (n : String) (r : List UdaSpec) (s : UdaSpec)
    (h : lookupName n r = some s) : s ∈ r ∧ s.name = n := by
  refine ⟨List.mem_of_find?_eq_some h, ?_⟩
  have := List.find?_some h
  simpa using this

theorem merge_ok_agree (l : List UdaSpec) : ∀ (r m : List UdaSpec),
    mergeList l r = .ok m →
    ∀ b ∈ l, ∀ p, lookupName b.name r = some p → specCompat p b = true := by
  induction l with
  | nil =>
    intro r m h b hb
    simp at hb
  | cons s t ih =>
    intro r m h b hb p hp
    cases hl : lookupName s.name r with
    | none =>
      rw [mergeList_cons_none s t r hl] at h
      rcases List.mem_cons.mp hb with rfl | hbt
      · rw [hl] at hp
        exact Option.noConfusion hp
      · refine ih (r ++ [s]) m h b hbt p ?_
        rw [lookupName_append_single, hp]
        rfl
    | some prev =>
      by_cases hc : specCompat prev s = true
      · rw [mergeList_cons_compat s t r prev hl hc] at h
        rcases List.mem_cons.mp hb with rfl | hbt
        · rw [hl] at hp
          obtain rfl := Option.some.inj hp
          exact hc
        · exact ih r m h b hbt p hp
      · rw [mergeList_cons_conflict s t r prev hl hc] at h
        exact Except.noConfusion h

theorem merge_ok_pairwise (l : List UdaSpec) : ∀ (r m : List UdaSpec),
    mergeList l r = .ok m →
    ∀ a ∈ l, ∀ b ∈ l, a.name = b.name → a = b ∨ specCompat a b = true := by
  induction l with
  | nil =>
    intro r m h a ha
    simp at ha
  | cons s t ih =>
    intro r m h a ha b hb hn
    cases hl : lookupName s.name r with
    | none =>
      rw [mergeList_cons_none s t r hl] at h
      rcases List.mem_cons.mp ha with rfl | hat
      · rcases List.mem_cons.mp hb with rfl | hbt
        · exact Or.inl rfl
        · right
          have hlook : lookupName b.name (r ++ [a]) = some a := by
            rw [lookupName_append_single, show b.name = a.name from hn.symm, hl]
            simp
          exact merge_ok_agree t (r ++ [a]) m h b hbt a hlook
      · rcases List.mem_cons.mp hb with rfl | hbt
        · right
          have hlook : lookupName a.name (r ++ [b]) = some b := by
            rw [lookupName_append_single, show a.name = b.name from hn, hl]
            simp
          exact specCompat_symm b a (merge_ok_agree t (r ++ [b]) m h a hat b hlook)
        · exact ih (r ++ [s]) m h a hat b hbt hn
    | some prev =>
      by_cases hc : specCompat prev s = true
      · rw [mergeList_cons_compat s t r prev hl hc] at h
        rcases List.mem_cons.mp ha with rfl | hat
        · rcases List.mem_cons.mp hb with rfl | hbt
          · exact Or.inl rfl
          · right
            have hlook : lookupName b.name r = some prev := by
              rw [show b.name = a.name from hn.symm]
              exact hl
            have h2 := merge_ok_agree t r m h b hbt prev hlook
            exact specCompat_trans a prev b (specCompat_symm prev a hc) h2
        · rcases List.mem_cons.mp hb with rfl | hbt
          · right
            have hlook : lookupName a.name r = some prev := by
              rw [show a.name = b.name from hn]
              exact hl
            have h2 := merge_ok_agree t r m h a hat prev hlook
            have hba : specCompat b a = true :=
              specCompat_trans b prev a (specCompat_symm prev b hc) h2
            exact specCompat_symm b a hba
          · exact ih r m h a hat b hbt hn
      · rw [mergeList_cons_conflict s t r prev hl hc] at h
        exact Except.noConfusion h

theorem merge_err_props (l : List UdaSpec) : ∀ (r : List UdaSpec) (err : ConflictError),
    mergeList l r = .error err →
    err.secondSpec ∈ l ∧ (err.firstSpec ∈ r ∨ err.firstSpec ∈ l) ∧
      err.firstSpec.name = err.name ∧ err.secondSpec.name = err.name ∧
      ¬ specCompat err.firstSpec err.secondSpec = true := by
  induction l with
  | nil =>
    intro r err h
    rw [mergeList] at h
    exact Except.noConfusion h
  | cons s t ih =>
    intro r err h
    cases hl : lookupName s.name r with
    | none =>
      rw [mergeList_cons_none s t r hl] at h
      obtain ⟨h1, h2, h3, h4, h5⟩ := ih (r ++ [s]) err h
      refine ⟨List.mem_cons_of_mem s h1, ?_, h3, h4, h5⟩
      rcases h2 with hr | hl2
      · rcases List.mem_append.mp hr with hr2 | hs2
        · exact Or.inl hr2
        · exact Or.inr (List.mem_cons.mpr (Or.inl (List.mem_singleton.mp hs2)))
      · exact Or.inr (List.mem_cons_of_mem s hl2)
    | some prev =>
      by_cases hc : specCompat prev s = true
      · rw [mergeList_cons_compat s t r prev hl hc] at h
        obtain ⟨h1, h2, h3, h4, h5⟩ := ih r err h
        refine ⟨List.mem_cons_of_mem s h1, ?_, h3, h4, h5⟩
        rcases h2 with hr | hl2
        · exact Or.inl hr
        · exact Or.inr (List.mem_cons_of_mem s hl2)
      · rw [mergeList_cons_conflict s t r prev hl hc] at h
        obtain rfl := (Except.error.inj h).symm
        obtain ⟨hm, hname⟩ := mem_of_lookupName s.name r prev hl
        exact ⟨List.mem_cons_self s t, Or.inl hm, hname, rfl, hc⟩

theorem merge_ok_lookup (l : List UdaSpec) : ∀ (r m : List UdaSpec),
    mergeList l r = .ok m →
    ∀ n, lookupName n m = (lookupName n r).or (l.find? (fun s => s.name == n)) := by
  induction l with
  | nil =>
    intro r m h n
    rw [mergeList] at h
    obtain rfl := Except.ok.inj h
    simp
  | cons s t ih =>
    intro r m h n
    cases hl : lookupName s.name r with
    | none =>
      rw [mergeList_cons_none s t r hl] at h
      rw [ih (r ++ [s]) m h n, lookupName_append_single, Option.or_assoc]
      congr 1
      rw [List.find?_cons]
      cases hs : (s.name == n) <;> simp [hs, Option.or]
    | some prev =>
      by_cases hc : specCompat prev s = true
      · rw [mergeList_cons_compat s t r prev hl hc] at h
        rw [ih r m h n, List.find?_cons]
        cases hs : (s.name == n)
        · simp [hs]
        · have hn2 : s.name = n := by simpa using hs
          rw [← hn2, hl]
          rfl
      · rw [mergeList_cons_conflict s t r prev hl hc] at h
        exact Except.noConfusion h

/-- C2: whenever two specs anywhere in the supplied lists share a name
but differ in one of the four compared fields, the merge fails with a
conflict error carrying the shared name and both complete conflicting
definitions (from which the differing field is determined); being an
error result, no registry at all is returned.  The urgency tables are
assumed key-unique, as Python dicts are. -/
theorem c2_merge_conflict (sl : List (List UdaSpec)) (a b : UdaSpec)
    (hwf : ∀ s ∈ sl.flatten, urgencyWF s)
    (ha : a ∈ sl.flatten) (hb : b ∈ sl.flatten)
    (hn : a.name = b.name) (hq : ¬ specCompat a b = true) :
    ∃ err, merge_uda_specs sl = .error err ∧
      err.firstSpec ∈ sl.flatten ∧ err.secondSpec ∈ sl.flatten ∧
      err.firstSpec.name = err.name ∧ err.secondSpec.name = err.name ∧
      ¬ specCompat err.firstSpec err.secondSpec = true := by
  cases hres : merge_uda_specs sl with
  | ok m =>
    exfalso
    have hres2 : mergeList sl.flatten [] = .ok m := hres
    rcases merge_ok_pairwise sl.flatten [] m hres2 a ha b hb hn with rfl | hcomp
    · exact hq (specCompat_refl a (hwf a ha))
    · exact hq hcomp
  | error err =>
    have hres2 : mergeList sl.flatten [] = .error err := hres
    obtain ⟨h1, h2, h3, h4, h5⟩ := merge_err_props sl.flatten [] err hres2
    refine ⟨err, rfl, ?_, h1, h3, h4, h5⟩
    rcases h2 with hr | hl2
    · simp at hr
    · exact hl2

/-- C2, witness: the `points` example — one type declares it numeric,
another string; the merge raises a conflict error naming `points`. -/
theorem c2_merge_conflict_witness :
    (∀ s ∈ ([[pointsNum], [pointsStr]] : List (List UdaSpec)).flatten, urgencyWF s) ∧
    pointsNum.name = pointsStr.name ∧ ¬ specCompat pointsNum pointsStr = true ∧
    ∃ err, merge_uda_specs [[pointsNum], [pointsStr]] = .error err ∧
      err.name = "points" := by
  refine ⟨by decide, rfl, by decide, ?_⟩
  obtain ⟨err, hmerge, hf, hs, hfn, hsn, hq⟩ :=
    c2_merge_conflict [[pointsNum], [pointsStr]] pointsNum pointsStr
      (by decide) (by decide) (by decide) rfl (by decide)
  refine ⟨err, hmerge, ?_⟩
  have hmem : err.secondSpec = pointsNum ∨ err.secondSpec = pointsStr := by
    simpa using hs
  rcases hmem with h | h <;> rw [← hsn, h] <;> rfl

/-- C6: merging `[A, B]` and `[B, A]` (same structural specs, different
discovery order), when both succeed, yields registries that are equal as
name-to-spec mappings under Python spec equality.  Urgency tables are
assumed key-unique, as Python dicts are. -/
theorem c6_merge_comm (A B m₁ m₂ : List UdaSpec)
    (hwf : ∀ s ∈ A ++ B, urgencyWF s)
    (h₁ : merge_uda_specs [A, B] = .ok m₁)
    (h₂ : merge_uda_specs [B, A] = .ok m₂) :
    ∀ n, optionSpecEq (lookupName n m₁) (lookupName n m₂) := by
  intro n
  have h₁2 : mergeList (A ++ B) [] = .ok m₁ := by
    have h := h₁
    rw [merge_uda_specs, show ([A, B] : List (List UdaSpec)).flatten = A ++ B by simp] at h
    exact h
  have h₂2 : mergeList (B ++ A) [] = .ok m₂ := by
    have h := h₂
    rw [merge_uda_specs, show ([B, A] : List (List UdaSpec)).flatten = B ++ A by simp] at h
    exact h
  have l₁ : lookupName n m₁ = (A ++ B).find? (fun s => s.name == n) := by
    have h := merge_ok_lookup (A ++ B) [] m₁ h₁2 n
    simpa [lookupName] using h
  have l₂ : lookupName n m₂ = (B ++ A).find? (fun s => s.name == n) := by
    have h := merge_ok_lookup (B ++ A) [] m₂ h₂2 n
    simpa [lookupName] using h
  rw [l₁, l₂, List.find?_append, List.find?_append]
  cases hA : A.find? (fun s => s.name == n) with
  | some a =>
    have hamem : a ∈ A := List.mem_of_find?_eq_some hA
    have han : a.name = n := by simpa using List.find?_some hA
    cases hB : B.find? (fun s => s.name == n) with
    | some b =>
      have hbmem : b ∈ B := List.mem_of_find?_eq_some hB
      have hbn : b.name = n := by simpa using List.find?_some hB
      show optionSpecEq (some a) (some b)
      rcases merge_ok_pairwise (A ++ B) [] m₁ h₁2 a
          (List.mem_append.mpr (Or.inl hamem)) b (List.mem_append.mpr (Or.inr hbmem))
          (han.trans hbn.symm) with rfl | hcomp
      · simp [optionSpecEq, pySpecEq, specCompat_refl a (hwf a (List.mem_append.mpr (Or.inl hamem)))]
      · simp [optionSpecEq, pySpecEq, han.trans hbn.symm, hcomp]
    | none =>
      show optionSpecEq (some a) (some a)
      simp [optionSpecEq, pySpecEq,
        specCompat_refl a (hwf a (List.mem_append.mpr (Or.inl hamem)))]
  | none =>
    cases hB : B.find? (fun s => s.name == n) with
    | some b =>
      have hbmem : b ∈ B := List.mem_of_find?_eq_some hB
      show optionSpecEq (some b) (some b)
      simp [optionSpecEq, pySpecEq,
        specCompat_refl b (hwf b (List.mem_append.mpr (Or.inr hbmem)))]
    | none =>
      show optionSpecEq none none
      simp [optionSpecEq]

/-- C6, witness: the commutativity theorem applied to two concrete spec
lists sharing the `points` spec. -/
theorem c6_merge_comm_witness :
    (∀ s ∈ ([sprintSpec, pointsNum] ++ [pointsNum]), urgencyWF s) ∧
    merge_uda_specs [[sprintSpec, pointsNum], [pointsNum]]
      = .ok [sprintSpec, pointsNum] ∧
    merge_uda_specs [[pointsNum], [sprintSpec, pointsNum]]
      = .ok [pointsNum, sprintSpec] ∧
    optionSpecEq (lookupName "points" [sprintSpec, pointsNum])
      (lookupName "points" [pointsNum, sprintSpec]) :=
  ⟨by decide, rfl, rfl,
    c6_merge_comm [sprintSpec, pointsNum] [pointsNum] [sprintSpec, pointsNum]
      [pointsNum, sprintSpec] (by decide) rfl rfl "points"⟩

/-! ## Claim C9 -/

theorem subclassWalk_nil (n : Nat) (children : Fin n → List (Fin n))
    (seen : Finset (Fin n)) : subclassWalk n children [] seen = [] := by
  rw [subclassWalk]

theorem subclassWalk_cons_mem (n : Nat) (children : Fin n → List (Fin n))
    (v : Fin n) (rest : List (Fin n)) (seen : Finset (Fin n)) (h : v ∈ seen) :
    subclassWalk n children (v :: rest) seen = subclassWalk n children rest seen := by
  rw [subclassWalk]
  exact if_pos h

theorem subclassWalk_cons_new (n : Nat) (children : Fin n → List (Fin n))
    (v : Fin n) (rest : List (Fin n)) (seen : Finset (Fin n)) (h : v ∉ seen) :
    subclassWalk n children (v :: rest) seen
      = v :: subclassWalk n children ((children v).reverse ++ rest) (insert v seen) := by
  rw [subclassWalk]
  exact if_neg h

theorem subclassWalk_closed (n : Nat) (children : Fin n → List (Fin n))
    (P : Fin n → Prop) (hstep : ∀ u v, P u → v ∈ children u → P v) :
    ∀ (stack : List (Fin n)) (seen : Finset (Fin n)),
      (∀ v ∈ stack, P v) → ∀ v ∈ subclassWalk n children stack seen, P v := by
  intro stack seen
  induction stack, seen using subclassWalk.induct n children with
  | case1 seen =>
    intro _ v hv
    rw [subclassWalk_nil] at hv
    simp at hv
  | case2 v rest seen hmem ih =>
    intro hstack u hu
    rw [subclassWalk_cons_mem n children v rest seen hmem] at hu
    exact ih (fun w hw => hstack w (List.mem_cons_of_mem v hw)) u hu
  | case3 v rest seen hmem ih =>
    intro hstack u hu
    rw [subclassWalk_cons_new n children v rest seen hmem] at hu
    rcases List.mem_cons.mp hu with rfl | hu2
    · exact hstack u (List.mem_cons_self u rest)
    · refine ih ?_ u hu2
      intro w hw
      rcases List.mem_append.mp hw with hw1 | hw2
      · exact hstep v w (hstack v (List.mem_cons_self v rest))
          (List.mem_reverse.mp hw1)
      · exact hstack w (List.mem_cons_of_mem v hw2)

theorem subclassWalk_nodup_fresh (n : Nat) (children : Fin n → List (Fin n)) :
    ∀ (stack : List (Fin n)) (seen : Finset (Fin n)),
      (subclassWalk n children stack seen).Nodup ∧
      ∀ v ∈ subclassWalk n children stack seen, v ∉ seen := by
  intro stack seen
  induction stack, seen using subclassWalk.induct n children with
  | case1 seen =>
    rw [subclassWalk_nil]
    exact ⟨List.nodup_nil, by simp⟩
  | case2 v rest seen hmem ih =>
    rw [subclassWalk_cons_mem n children v rest seen hmem]
    exact ih
  | case3 v rest seen hmem ih =>
    rw [subclassWalk_cons_new n children v rest seen hmem]
    obtain ⟨ihn, ihf⟩ := ih
    constructor
    · rw [List.nodup_cons]
      refine ⟨?_, ihn⟩
      intro hv
      exact ihf v hv (Finset.mem_insert_self v seen)
    · intro u hu
      rcases List.mem_cons.mp hu with rfl | hu2
      · exact hmem
      · intro huseen
        exact ihf u hu2 (Finset.mem_insert_of_mem huseen)

/-- C9: discovery returns each walked subtype at most once (no
duplicates even through multiple inheritance paths), never the base
type itself (the base is no class's direct subclass, subclassing being
irreflexive), and, under a module restriction, only subtypes whose
defining module is in the allowed set. -/
theorem c9_discover (n : Nat) (g : ClassGraph n) (base : Fin n)
    (allowed : Option (List String))
    (hbase : ∀ v, base ∉ g.children v) :
    (discover_task_models g base allowed).Nodup ∧
    base ∉ discover_task_models g base allowed ∧
    ∀ mods, allowed = some mods →
      ∀ v ∈ discover_task_models g base allowed, g.moduleOf v ∈ mods := by
  have hiter_nodup : (iter_all_subclasses g base).Nodup :=
    (subclassWalk_nodup_fresh n g.children (g.children base).reverse ∅).1
  have hbase_iter : base ∉ iter_all_subclasses g base := by
    intro hmem
    have hstep : ∀ u v : Fin n, v ≠ base → v ∈ g.children u → v ≠ base :=
      fun _ _ h _ => h
    have hinit : ∀ v ∈ (g.children base).reverse, v ≠ base := by
      intro v hv heq
      rw [List.mem_reverse] at hv
      rw [heq] at hv
      exact hbase base hv
    have hstep2 : ∀ u v : Fin n, u ≠ base → v ∈ g.children u → v ≠ base := by
      intro u v _ hv heq
      rw [heq] at hv
      exact hbase u hv
    have := subclassWalk_closed n g.children (fun v => v ≠ base) hstep2
      (g.children base).reverse ∅ hinit base hmem
    exact this rfl
  refine ⟨List.Nodup.filter _ hiter_nodup, ?_, ?_⟩
  · intro hmem
    exact hbase_iter (List.mem_of_mem_filter hmem)
  · intro mods hmods v hv
    rw [discover_task_models, hmods] at hv
    have := List.of_mem_filter hv
    simpa using this

/-- C9, witness: the discovery theorem applied to a concrete
three-class graph with a diamond path to class 2 and a module
restriction. -/
theorem c9_discover_witness :
    (∀ v, (0 : Fin 3) ∉ c9graph.children v) ∧
    (discover_task_models c9graph 0 (some ["mod_a"])).Nodup ∧
    (0 : Fin 3) ∉ discover_task_models c9graph 0 (some ["mod_a"]) :=
  ⟨by decide,
    (c9_discover 3 c9graph 0 (some ["mod_a"]) (by decide)).1,
    (c9_discover 3 c9graph 0 (some ["mod_a"]) (by decide)).2.1⟩

/-! ## Claim C10 -/

/-- C10: extraction never produces an attribute spec for a field whose
name begins with an underscore — the spec list contains no
underscore-prefixed name at all, whether or not the field is core or
computed. -/
theorem c10_underscore_excluded (rt : RecordType) :
    ∀ s ∈ extract_uda_specs rt, startsWithUnderscore s.name = false := by
  intro s hs
  rw [extract_uda_specs, List.mem_filterMap] at hs
  obtain ⟨nf, _, hnf⟩ := hs
  by_cases hc : (rt.coreFieldNames.contains nf.1 || rt.computedFieldNames.contains nf.1 ||
      startsWithUnderscore nf.1) = true
  · rw [if_pos hc] at hnf
    exact Option.noConfusion hnf
  · rw [if_neg hc] at hnf
    obtain rfl := (Option.some.inj hnf).symm
    simp only [Bool.or_eq_true, not_or] at hc
    simpa using hc.2

/-- C10, witness: a record with an underscore-prefixed declared field
(neither core nor computed) extracts only the other field, and the
extracted spec carries no underscore-prefixed name. -/
theorem c10_underscore_excluded_witness :
    (extract_uda_specs c10rt).map UdaSpec.name = ["sprint"] ∧
    startsWithUnderscore
      (UdaSpec.mk "sprint" "string" none none none).name = false :=
  ⟨by decide,
    c10_underscore_excluded c10rt ⟨"sprint", "string", none, none, none⟩ (by decide)⟩

/-- C3, counterexample: a present-but-empty `values` override is not
used verbatim — the empty list is falsy in Python, so inference wins
and the enum values are emitted instead of the overridden empty list. -/
theorem c3_counterexample :
    c3field.taskwarrior.values = some [] ∧
    extract_uda_specs c3rt
      = [⟨"phase", UDA_TYPE_STRING, none, some ["S23", "S24"], none⟩] ∧
    (⟨"phase", UDA_TYPE_STRING, none, some ["S23", "S24"], none⟩ : UdaSpec).values
      ≠ some [] :=
  ⟨rfl, rfl, by decide⟩

theorem inferKindValues_eq (tp : PyType) :
    inferKindValues tp = (inferTaskwarriorType tp, inferValues tp) := by
  cases h : unwrapOptional tp <;>
    simp [inferKindValues, inferTaskwarriorType, inferValues, h]

/-- C3 (amended): extraction equals, field for field, the
specification-side table: skip core, computed and underscore-prefixed
fields; take label and weights verbatim from the override; take
storageKind and allowedValues from the override when present and
non-empty, otherwise infer them after unwrapping optional wrappers
(enumeration and literal types give string plus their values in
declaration order, datetime gives date, timedelta gives duration, int
and float give numeric, anything else gives string with no values);
moreover a non-empty storageKind override always wins. -/
theorem c3_extract_inference :
    (∀ rt : RecordType, extract_uda_specs rt
      = rt.fields.filterMap (fun nf =>
          if rt.coreFieldNames.contains nf.1 || rt.computedFieldNames.contains nf.1 ||
              startsWithUnderscore nf.1 then none
          else some (specFromSpecSide nf.1 nf.2))) ∧
    (∀ n vs, specFromSpecSide n ⟨.enumT vs, noTw⟩
      = ⟨n, UDA_TYPE_STRING, none, some vs, none⟩) ∧
    (∀ n, specFromSpecSide n ⟨.timedeltaT, noTw⟩
      = ⟨n, UDA_TYPE_DURATION, none, none, none⟩) ∧
    (∀ n, specFromSpecSide n ⟨.intT, noTw⟩ = ⟨n, UDA_TYPE_NUMERIC, none, none, none⟩) ∧
    (∀ n, specFromSpecSide n ⟨.floatT, noTw⟩
      = ⟨n, UDA_TYPE_NUMERIC, none, none, none⟩) ∧
    (∀ n, specFromSpecSide n ⟨.datetimeT, noTw⟩
      = ⟨n, UDA_TYPE_DATE, none, none, none⟩) ∧
    (∀ n nm, specFromSpecSide n ⟨.otherT nm, noTw⟩
      = ⟨n, UDA_TYPE_STRING, none, none, none⟩) ∧
    (∀ tp, unwrapOptional (PyType.optionalT tp) = unwrapAnnotated tp) ∧
    (∀ n f t, f.taskwarrior.type = some t → t ≠ "" →
      (specFromSpecSide n f).type = t) := by
  refine ⟨?_, fun n vs => rfl, fun n => rfl, fun n => rfl, fun n => rfl, fun n => rfl,
    fun n nm => rfl, ?_, ?_⟩
  · intro rt
    rw [extract_uda_specs]
    apply List.filterMap_congr
    intro nf _
    by_cases hc : (rt.coreFieldNames.contains nf.1 || rt.computedFieldNames.contains nf.1 ||
        startsWithUnderscore nf.1) = true
    · rw [if_pos hc, if_pos hc]
    · rw [if_neg hc, if_neg hc]
      congr 1
      rw [specFromSpecSide]
      have hkey := inferKindValues_eq nf.2.ann
      cases htp : nf.2.taskwarrior.type <;> cases hvs : nf.2.taskwarrior.values <;>
        simp [pyOrStr, pyOrValues, htp, hvs, hkey, UdaSpec.mk.injEq]
  · intro tp
    cases tp <;> rfl
  · intro n f t ht hne
    rw [specFromSpecSide]
    simp [ht, hne]

/-- C3, witness: the amended theorem applied to a concrete record type,
plus the override-wins clause at a concrete numeric override on a
string-inferred field. -/
theorem c3_extract_inference_witness :
    extract_uda_specs c3rt
      = (c3rt.fields.filterMap (fun nf =>
          if c3rt.coreFieldNames.contains nf.1 ||
              c3rt.computedFieldNames.contains nf.1 ||
              startsWithUnderscore nf.1 then none
          else some (specFromSpecSide nf.1 nf.2))) ∧
    (⟨PyType.strT, ⟨some "numeric", none, none, none⟩⟩ : FieldInfo).taskwarrior.type
      = some "numeric" ∧
    ("numeric" : String) ≠ "" ∧
    (specFromSpecSide "score" ⟨PyType.strT, ⟨some "numeric", none, none, none⟩⟩).type
      = "numeric" :=
  ⟨c3_extract_inference.1 c3rt, rfl, by decide,
    c3_extract_inference.2.2.2.2.2.2.2.2 "score"
      ⟨PyType.strT, ⟨some "numeric", none, none, none⟩⟩ "numeric" rfl (by decide)⟩

theorem joinNL_cons_ne (x : Str) (rest : List Str) (h : rest ≠ []) :
    joinNL (x :: rest) = x ++ '\n' :: joinNL rest := by
  cases rest with
  | nil => exact absurd rfl h
  | cons y ys => rfl

theorem joinNL_append_ne (xs ys : List Str) (hxs : xs ≠ []) (hys : ys ≠ []) :
    joinNL (xs ++ ys) = joinNL xs ++ '\n' :: joinNL ys := by
  induction xs with
  | nil => exact absurd rfl hxs
  | cons x xs' ih =>
    cases hxe : xs' with
    | nil =>
      rw [List.singleton_append, joinNL_cons_ne x ys hys]
      rfl
    | cons z zs =>
      rw [← hxe]
      have hxs' : xs' ≠ [] := by rw [hxe]; exact List.cons_ne_nil z zs
      rw [List.cons_append, joinNL_cons_ne x (xs' ++ ys) (by simp [hxs']),
        joinNL_cons_ne x xs' hxs', ih hxs']
      simp

theorem cleanTailB_append (x y : Str) (hy : cleanTailB y = true) :
    cleanTailB (x ++ y) = true := by
  unfold cleanTailB at hy ⊢
  cases hr : y.reverse with
  | nil => rw [hr] at hy; exact Bool.noConfusion hy
  | cons c t =>
    rw [hr] at hy
    rw [List.reverse_append, hr]
    exact hy

theorem rstrip_eq_self_of_cleanTail (l : Str) (h : cleanTailB l = true) :
    rstrip l = l := by
  unfold cleanTailB at h
  cases hr : l.reverse with
  | nil => rw [hr] at h; exact Bool.noConfusion h
  | cons c t =>
    rw [hr] at h
    exact rstrip_eq_self_of_rev l c t hr (by simpa using h)

theorem cleanTailB_joinNL (L : List Str) (hL : L ≠ [])
    (hcl : ∀ ln ∈ L, cleanTailB ln = true) : cleanTailB (joinNL L) = true := by
  induction L with
  | nil => exact absurd rfl hL
  | cons x rest ih =>
    cases hre : rest with
    | nil =>
      exact hcl x (List.mem_cons_self x rest)
    | cons y ys =>
      rw [← hre, joinNL_cons_ne x rest (by rw [hre]; exact List.cons_ne_nil y ys)]
      apply cleanTailB_append
      apply cleanTailB_append ['\n']
      exact ih (by rw [hre]; exact List.cons_ne_nil y ys)
        (fun ln hln => hcl ln (List.mem_cons_of_mem x hln))

theorem rstrip_append_of_ne (x y : Str) (hy : rstrip y ≠ []) :
    rstrip (x ++ y) = x ++ rstrip y := by
  have hdw : List.dropWhile pyIsSpace y.reverse ≠ [] := by
    intro h0
    apply hy
    rw [rstrip, h0, List.reverse_nil]
  have hne : (List.dropWhile pyIsSpace y.reverse).isEmpty = false := by
    cases hd : List.dropWhile pyIsSpace y.reverse with
    | nil => exact absurd hd hdw
    | cons a as => rfl
  rw [rstrip, List.reverse_append, List.dropWhile_append, hne]
  simp [rstrip]

theorem specLines_ne_nil (s : UdaSpec) : specLines s ≠ [] := by
  rw [specLines]
  exact List.cons_ne_nil _ _

theorem joinNL_cons_ne_nil (x : Str) (rest : List Str) (hx : x ≠ []) :
    joinNL (x :: rest) ≠ [] := by
  cases rest with
  | nil => simpa [joinNL] using hx
  | cons y ys =>
    rw [joinNL_cons_ne x (y :: ys) (List.cons_ne_nil y ys)]
    simp

theorem joinNL_specLines_ne_nil (s : UdaSpec) : joinNL (specLines s) ≠ [] := by
  rw [specLines]
  apply joinNL_cons_ne_nil
  simp [udaDot]

theorem flatOf_ne_nil (s : UdaSpec) (rest : List UdaSpec) :
    flatOf (s :: rest) ≠ [] := by
  rw [flatOf, List.flatMap_cons]
  simp [specLines_ne_nil]

theorem joinBlankSep_cons_cons (x y : Str) (t : List Str) :
    joinBlankSep (x :: y :: t) = x ++ '\n' :: '\n' :: joinBlankSep (y :: t) := rfl

theorem render_core (l : List UdaSpec)
    (hcl : ∀ s ∈ l, ∀ ln ∈ specLines s, cleanTailB ln = true) :
    rstrip (joinNL (flatOf l))
      = joinBlankSep (l.map (fun s => joinNL (specLines s))) := by
  induction l with
  | nil => rfl
  | cons s rest ih =>
    have hLne : specLines s ≠ [] := specLines_ne_nil s
    have hclean : cleanTailB (joinNL (specLines s)) = true :=
      cleanTailB_joinNL _ hLne (hcl s (List.mem_cons_self s rest))
    cases hre : rest with
    | nil =>
      have hshape : flatOf [s] = specLines s ++ [[]] := by
        rw [flatOf, List.flatMap_cons, List.flatMap_nil, List.append_nil]
      rw [hshape, joinNL_append_ne _ [[]] hLne (List.cons_ne_nil [] []),
        show joinNL [([] : Str)] = [] from rfl]
      have h1 : joinNL (specLines s) ++ '\n' :: ([] : Str)
          = joinNL (specLines s) ++ ['\n'] := rfl
      rw [h1, rstrip_append_space _ '\n' (by decide),
        rstrip_eq_self_of_cleanTail _ hclean]
      rfl
    | cons r rs =>
      rw [← hre]
      have hFne : flatOf rest ≠ [] := by
        rw [hre]
        exact flatOf_ne_nil r rs
      have hshape : flatOf (s :: rest) = specLines s ++ ([] :: flatOf rest) := by
        rw [flatOf, List.flatMap_cons]
        simp [flatOf]
      rw [hshape, joinNL_append_ne _ _ hLne (List.cons_ne_nil [] _),
        joinNL_cons_ne [] _ hFne, show ([] : Str) ++ '\n' :: joinNL (flatOf rest)
          = '\n' :: joinNL (flatOf rest) from rfl]
      have hJ := ih (fun t ht ln hln => hcl t (List.mem_cons_of_mem s ht) ln hln)
      have hJne : rstrip (joinNL (flatOf rest)) ≠ [] := by
        rw [hJ, hre]
        cases hrs : rs with
        | nil =>
          show joinBlankSep [joinNL (specLines r)] ≠ []
          exact joinNL_specLines_ne_nil r
        | cons q qs =>
          rw [List.map_cons, List.map_cons, joinBlankSep_cons_cons]
          simp
      have h2 : rstrip ('\n' :: '\n' :: joinNL (flatOf rest))
          = '\n' :: '\n' :: rstrip (joinNL (flatOf rest)) := by
        have := rstrip_append_of_ne ['\n', '\n'] (joinNL (flatOf rest)) hJne
        simpa using this
      have h3 : rstrip ('\n' :: '\n' :: joinNL (flatOf rest)) ≠ [] := by
        rw [h2]
        simp
      rw [rstrip_append_of_ne _ _ h3]
      have h4 : joinNL (specLines s) ++ '\n' :: ('\n' :: joinNL (flatOf rest))
          = joinNL (specLines s) ++ ('\n' :: '\n' :: joinNL (flatOf rest)) := rfl
      rw [h2, hJ, hre, List.map_cons]
      cases hrs : rs with
      | nil => rfl
      | cons q qs => rfl

theorem insertByName_perm (s : UdaSpec) (l : List UdaSpec) :
    List.Perm (insertByName s l) (s :: l) := by
  induction l with
  | nil => exact List.Perm.refl _
  | cons t rest ih =>
    rw [insertByName]
    by_cases h : strLeB s.name.data t.name.data = true
    · rw [if_pos h]
    · rw [if_neg h]
      exact (List.Perm.cons t ih).trans (List.Perm.swap s t rest)

theorem sortByName_perm (l : List UdaSpec) : List.Perm (sortByName l) l := by
  induction l with
  | nil => exact List.Perm.refl _
  | cons s rest ih =>
    rw [sortByName]
    exact (insertByName_perm s (sortByName rest)).trans (List.Perm.cons s ih)

theorem strLeB_total (a b : List Char) : strLeB a b = true ∨ strLeB b a = true := by
  induction a generalizing b with
  | nil => left; rfl
  | cons c as ih =>
    cases b with
    | nil => right; rfl
    | cons d bs =>
      rw [strLeB, strLeB]
      rcases Nat.lt_trichotomy c.toNat d.toNat with h | h | h
      · left; simp [h]
      · have h2 : ¬ c.toNat < d.toNat := by omega
        have h3 : ¬ d.toNat < c.toNat := by omega
        simp only [if_neg h2, if_neg h3]
        exact ih bs
      · right; simp [h]

theorem strLeB_trans (a : List Char) : ∀ b c : List Char,
    strLeB a b = true → strLeB b c = true → strLeB a c = true := by
  induction a with
  | nil => intro b c _ _; rfl
  | cons x as ih =>
    intro b c hab hbc
    cases b with
    | nil => rw [strLeB] at hab; exact Bool.noConfusion hab
    | cons y bs =>
      cases c with
      | nil => rw [strLeB] at hbc; exact Bool.noConfusion hbc
      | cons z cs =>
        rw [strLeB] at hab hbc ⊢
        by_cases hxy : x.toNat < y.toNat
        · by_cases hyz : y.toNat < z.toNat
          · simp [show x.toNat < z.toNat by omega]
          · by_cases hzy : z.toNat < y.toNat
            · rw [if_neg hyz, if_pos hzy] at hbc
              exact Bool.noConfusion hbc
            · simp [show x.toNat < z.toNat by omega]
        · by_cases hyx : y.toNat < x.toNat
          · rw [if_neg hxy, if_pos hyx] at hab
            exact Bool.noConfusion hab
          · by_cases hyz : y.toNat < z.toNat
            · simp [show x.toNat < z.toNat by omega]
            · by_cases hzy : z.toNat < y.toNat
              · rw [if_neg hyz, if_pos hzy] at hbc
                exact Bool.noConfusion hbc
              · have hxz : ¬ x.toNat < z.toNat := by omega
                have hzx : ¬ z.toNat < x.toNat := by omega
                rw [if_neg hxy, if_neg hyx] at hab
                rw [if_neg hyz, if_neg hzy] at hbc
                rw [if_neg hxz, if_neg hzx]
                exact ih bs cs hab hbc

theorem insertByName_sorted (s : UdaSpec) (l : List UdaSpec)
    (h : List.Pairwise (fun a b : UdaSpec => strLeB a.name.data b.name.data = true) l) :
    List.Pairwise (fun a b : UdaSpec => strLeB a.name.data b.name.data = true)
      (insertByName s l) := by
  induction l with
  | nil => simp [insertByName]
  | cons t rest ih =>
    rw [List.pairwise_cons] at h
    rw [insertByName]
    by_cases hle : strLeB s.name.data t.name.data = true
    · rw [if_pos hle]
      rw [List.pairwise_cons]
      constructor
      · intro x hx
        rcases List.mem_cons.mp hx with rfl | hxr
        · exact hle
        · exact strLeB_trans _ _ _ hle (h.1 x hxr)
      · rw [List.pairwise_cons]
        exact h
    · rw [if_neg hle]
      rw [List.pairwise_cons]
      constructor
      · intro x hx
        have hx2 : x = s ∨ x ∈ rest :=
          List.mem_cons.mp ((insertByName_perm s rest).mem_iff.mp hx)
        rcases hx2 with rfl | hxr
        · rcases strLeB_total x.name.data t.name.data with h1 | h1
          · exact absurd h1 hle
          · exact h1
        · exact h.1 x hxr
      · exact ih h.2

theorem sortByName_sorted (l : List UdaSpec) :
    List.Pairwise (fun a b : UdaSpec => strLeB a.name.data b.name.data = true)
      (sortByName l) := by
  induction l with
  | nil => simp [sortByName]
  | cons s rest ih =>
    rw [sortByName]
    exact insertByName_sorted s (sortByName rest) ih

/-- C7, counterexample: a label that is present but empty produces no
label line (Python truthiness), so `label line if the label is present`
fails as stated — the rendered text contains no `.label=` at all. -/
theorem c7_counterexample :
    c7spec.label.isSome = true ∧
    firstOcc ".label=".data (render_taskrc_udas [c7spec]) = none :=
  ⟨rfl, rfl⟩

/-- C7 (amended): the rendered block is, exactly, the name-sorted spec
blocks joined by single blank lines with one trailing newline, where the
spec order is a sort of the registry by ascending name; and each spec
block consists of its type line, then (when present and non-empty) the
label line, the comma-joined values line, and one weighting line per
urgency entry, in that fixed order.  Hypothesis: no emitted line ends in
whitespace (otherwise the final right-trim also eats into the last
line). -/
theorem c7_render_structure (specs : List UdaSpec)
    (hcl : ∀ s ∈ specs, ∀ ln ∈ specLines s, cleanTailB ln = true) :
    render_taskrc_udas specs
      = joinBlankSep ((sortByName specs).map (fun s => joinNL (specLines s)))
          ++ ['\n'] ∧
    List.Pairwise (fun a b : UdaSpec => strLeB a.name.data b.name.data = true)
      (sortByName specs) ∧
    List.Perm (sortByName specs) specs ∧
    (∀ nm ty lb vs us, lb ≠ "" → vs ≠ ([] : List String) →
      us ≠ ([] : List (String × Int)) →
      specLines ⟨nm, ty, some lb, some vs, some us⟩
        = [udaDot ++ nm.data ++ dotTypeEq ++ ty.data,
           udaDot ++ nm.data ++ ".label=".data ++ lb.data,
           udaDot ++ nm.data ++ ".values=".data ++ (String.intercalate "," vs).data]
          ++ us.map (fun p =>
            "urgency.uda.".data ++ nm.data ++ ".".data ++ p.1.data ++
              ".coefficient=".data ++ (toString p.2).data)) := by
  refine ⟨?_, sortByName_sorted specs, sortByName_perm specs, ?_⟩
  · have hcl2 : ∀ s ∈ sortByName specs, ∀ ln ∈ specLines s, cleanTailB ln = true :=
      fun s hs => hcl s ((sortByName_perm specs).mem_iff.mp hs)
    have hcore := render_core (sortByName specs) hcl2
    rw [render_taskrc_udas]
    rw [show flatLines specs = flatOf (sortByName specs) from rfl, hcore]
  · intro nm ty lb vs us hlb hvs hus
    rw [specLines]
    simp [hlb, hvs, hus]

/-- C7, witness: the rendering theorem applied to two concrete specs
given out of name order, together with the concrete rendered text. -/
theorem c7_render_structure_witness :
    (∀ s ∈ [c7a, c7b], ∀ ln ∈ specLines s, cleanTailB ln = true) ∧
    render_taskrc_udas [c7a, c7b]
      = joinBlankSep ((sortByName [c7a, c7b]).map (fun s => joinNL (specLines s)))
          ++ ['\n'] ∧
    render_taskrc_udas [c7a, c7b]
      = "uda.alpha.type=string\nuda.alpha.label=A\nuda.alpha.values=x,y\n\nuda.beta.type=numeric\nuda.beta.label=B\nurgency.uda.beta.H.coefficient=5\n".data :=
  ⟨by decide, (c7_render_structure [c7a, c7b] (by decide)).1, by decide⟩

/-- C8, counterexample: a line with leading whitespace is stripped
before parsing, so `x` is extracted although no raw line of the file is
literally `uda.x.type=...` — the extracted set and the claimed set
differ. -/
theorem c8_counterexample :
    parse_existing_uda_names " uda.x.type=y\n".data = ["x".data] ∧
    claimDeclaredLit " uda.x.type=y\n".data "x".data = false :=
  ⟨rfl, rfl⟩

theorem firstOcc_isSome_of_occ (p l : Str) (i : Nat) (h : p <+: l.drop i) :
    (firstOcc p l).isSome = true := by
  cases hf : firstOcc p l with
  | none => exact absurd h ((firstOcc_eq_none_iff p l).mp hf i)
  | some k => rfl

theorem drop_of_udaDot_prefix (L : Str) (h : udaDot.isPrefixOf L = true) :
    L = udaDot ++ L.drop 4 := by
  have hp : udaDot <+: L := (isPrefixOf_eq_true _ _).mp h
  have ht := List.prefix_iff_eq_take.mp hp
  have h4 : udaDot.length = 4 := rfl
  rw [h4] at ht
  conv_lhs => rw [← List.take_append_drop 4 L]
  rw [← ht]

theorem no_dotTypeEq_low (i : Nat) (hi : i < 3) (R : Str) :
    ¬ dotTypeEq <+: (udaDot.drop i ++ R) := by
  intro h
  obtain ⟨t, ht⟩ := h
  have h3 : i = 0 ∨ i = 1 ∨ i = 2 := by omega
  have hh := congrArg List.head? ht
  rcases h3 with rfl | rfl | rfl
  · have hcontra : some '.' = some 'u' := hh
    exact absurd hcontra (by decide)
  · have hcontra : some '.' = some 'd' := hh
    exact absurd hcontra (by decide)
  · have hcontra : some '.' = some 'a' := hh
    exact absurd hcontra (by decide)

theorem parsedName_eq_of_cond (raw : Str)
    (h0 : ¬ strip raw = []) (h1 : ¬ (strip raw).head? = some '#')
    (h2 : (udaDot.isPrefixOf (strip raw) &&
      (firstOcc dotTypeEq (strip raw)).isSome) = true) :
    parsedNameOfLine raw
      = (let name := strip (match firstOcc dotTypeEq ((strip raw).drop 4) with
          | some k => ((strip raw).drop 4).take k
          | none => (strip raw).drop 4);
         if name = [] then none else some name) := by
  rw [parsedNameOfLine, if_neg h0, if_neg h1, if_pos h2]

theorem parsedName_eq_some_case (raw : Str)
    (h0 : ¬ strip raw = []) (h1 : ¬ (strip raw).head? = some '#')
    (h2 : (udaDot.isPrefixOf (strip raw) &&
      (firstOcc dotTypeEq (strip raw)).isSome) = true)
    (k : Nat) (hk : firstOcc dotTypeEq ((strip raw).drop 4) = some k) :
    parsedNameOfLine raw
      = (if strip (((strip raw).drop 4).take k) = [] then none
         else some (strip (((strip raw).drop 4).take k))) := by
  rw [parsedName_eq_of_cond raw h0 h1 h2, hk]

theorem parsedName_eq_none_case (raw : Str)
    (h0 : ¬ strip raw = []) (h1 : ¬ (strip raw).head? = some '#')
    (h2 : (udaDot.isPrefixOf (strip raw) &&
      (firstOcc dotTypeEq (strip raw)).isSome) = true)
    (hk : firstOcc dotTypeEq ((strip raw).drop 4) = none) :
    parsedNameOfLine raw
      = (if strip ((strip raw).drop 4) = [] then none
         else some (strip ((strip raw).drop 4))) := by
  rw [parsedName_eq_of_cond raw h0 h1 h2, hk]

theorem parsedName_iff (raw N : Str) :
    parsedNameOfLine raw = some N ↔ lineDeclares raw N := by
  constructor
  · intro h
    by_cases h0 : strip raw = []
    · rw [parsedNameOfLine, if_pos h0] at h
      exact Option.noConfusion h
    by_cases h1 : (strip raw).head? = some '#'
    · rw [parsedNameOfLine, if_neg h0, if_pos h1] at h
      exact Option.noConfusion h
    by_cases h2 : (udaDot.isPrefixOf (strip raw) &&
        (firstOcc dotTypeEq (strip raw)).isSome) = true
    · have h2b := h2
      rw [Bool.and_eq_true] at h2b
      have hline := drop_of_udaDot_prefix (strip raw) h2b.1
      cases hk : firstOcc dotTypeEq ((strip raw).drop 4) with
      | some k =>
        rw [parsedName_eq_some_case raw h0 h1 h2 k hk] at h
        by_cases hnm : strip (((strip raw).drop 4).take k) = []
        · rw [if_pos hnm] at h
          exact Option.noConfusion h
        · rw [if_neg hnm] at h
          have hN : N = strip (((strip raw).drop 4).take k) :=
            (Option.some.inj h).symm
          left
          obtain ⟨hpre, _⟩ := firstOcc_eq_some_spec _ _ _ hk
          obtain ⟨r2, hr2⟩ := hpre
          have hklen : k ≤ ((strip raw).drop 4).length := by
            by_contra hgt
            have hnil : ((strip raw).drop 4).drop k = [] :=
              List.drop_eq_nil_of_le (by omega)
            rw [hnil] at hr2
            have hne2 : dotTypeEq ++ r2 ≠ [] := by
              intro hc
              exact absurd (List.append_eq_nil.mp hc).1 (by decide)
            exact hne2 hr2
          have hMlen : (((strip raw).drop 4).take k).length = k := by
            rw [List.length_take]
            omega
          have hRdec : (strip raw).drop 4
              = ((strip raw).drop 4).take k ++ (dotTypeEq ++ r2) := by
            rw [hr2, List.take_append_drop]
          refine ⟨((strip raw).drop 4).take k, r2, ?_, ?_, hN, ?_⟩
          · rw [← hRdec]
            exact hline
          · rw [← hRdec, hk, hMlen]
          · rw [hN]
            exact hnm
      | none =>
        rw [parsedName_eq_none_case raw h0 h1 h2 hk] at h
        by_cases hnm : strip ((strip raw).drop 4) = []
        · rw [if_pos hnm] at h
          exact Option.noConfusion h
        · rw [if_neg hnm] at h
          have hN : N = strip ((strip raw).drop 4) := (Option.some.inj h).symm
          right
          obtain ⟨i, hpre⟩ : ∃ i, dotTypeEq <+: (strip raw).drop i := by
            cases hfo : firstOcc dotTypeEq (strip raw) with
            | none =>
              rw [Bool.and_eq_true, hfo] at h2
              exact absurd h2.2 (by decide)
            | some j => exact ⟨j, (firstOcc_eq_some_spec _ _ _ hfo).1⟩
          have hnone := (firstOcc_eq_none_iff _ _).mp hk
          have h4 : udaDot.length = 4 := rfl
          rcases Nat.lt_or_ge i 4 with hi4 | hi4
          · have hdropi : (strip raw).drop i
                = udaDot.drop i ++ (strip raw).drop 4 := by
              conv_lhs => rw [hline]
              rw [List.drop_append_eq_append_drop,
                show i - udaDot.length = 0 by omega, List.drop_zero]
            rcases Nat.lt_or_ge i 3 with hi3 | hi3
            · rw [hdropi] at hpre
              exact absurd hpre (no_dotTypeEq_low i hi3 _)
            · have hieq : i = 3 := by omega
              subst hieq
              rw [hdropi] at hpre
              have hd3 : udaDot.drop 3 = ['.'] := by decide
              rw [hd3] at hpre
              obtain ⟨t2, ht2⟩ := hpre
              have ht3 : '.' :: ("type=".data ++ t2)
                  = '.' :: ((strip raw).drop 4) := ht2
              have ht4 : "type=".data ++ t2 = (strip raw).drop 4 :=
                ((List.cons.injEq _ _ _ _).mp ht3).2
              refine ⟨t2, ?_, ?_, ?_, ?_⟩
              · rw [← ht4] at hline
                exact hline
              · rw [ht4]
                exact hk
              · rw [ht4]
                exact hN
              · rw [hN]
                exact hnm
          · exfalso
            have hdropi : (strip raw).drop i
                = ((strip raw).drop 4).drop (i - 4) := by
              conv_lhs => rw [hline]
              rw [List.drop_append_eq_append_drop,
                List.drop_eq_nil_of_le (by omega), List.nil_append, h4]
            rw [hdropi] at hpre
            exact hnone (i - 4) hpre
    · rw [parsedNameOfLine, if_neg h0, if_neg h1, if_neg h2] at h
      exact Option.noConfusion h
  · intro hdecl
    rcases hdecl with ⟨M, rest, hsr, hfo, hN, hNne⟩ | ⟨rest, hsr, hfo, hN, hNne⟩
    · have hne : ¬ strip raw = [] := by
        rw [hsr]
        have hcons : udaDot ++ (M ++ (dotTypeEq ++ rest))
            = 'u' :: ("da.".data ++ (M ++ (dotTypeEq ++ rest))) := rfl
        rw [hcons]
        exact List.cons_ne_nil _ _
      have hhead : (strip raw).head? = some 'u' := by
        rw [hsr]
        rfl
      have hhash : ¬ (strip raw).head? = some '#' := by
        rw [hhead]
        decide
      have hdrop4 : (strip raw).drop 4 = M ++ (dotTypeEq ++ rest) := by
        rw [hsr, show (4 : Nat) = udaDot.length from rfl]
        exact List.drop_left udaDot _
      have h4 : udaDot.length = 4 := rfl
      have hcond : (udaDot.isPrefixOf (strip raw) &&
          (firstOcc dotTypeEq (strip raw)).isSome) = true := by
        rw [Bool.and_eq_true]
        constructor
        · rw [isPrefixOf_eq_true, hsr]
          exact List.prefix_append _ _
        · apply firstOcc_isSome_of_occ dotTypeEq (strip raw) (4 + M.length)
          have hdr : (strip raw).drop (4 + M.length) = dotTypeEq ++ rest := by
            rw [hsr, List.drop_append_eq_append_drop,
              List.drop_eq_nil_of_le (by omega), List.nil_append,
              show 4 + M.length - udaDot.length = M.length by omega,
              List.drop_left]
          rw [hdr]
          exact List.prefix_append _ _
      have hfo2 : firstOcc dotTypeEq ((strip raw).drop 4) = some M.length := by
        rw [hdrop4]
        exact hfo
      rw [parsedName_eq_some_case raw hne hhash hcond M.length hfo2, hdrop4,
        List.take_left]
      rw [hN] at hNne
      rw [if_neg hNne, ← hN]
    · have hne : ¬ strip raw = [] := by
        rw [hsr]
        have hcons : udaDot ++ ("type=".data ++ rest)
            = 'u' :: ("da.".data ++ ("type=".data ++ rest)) := rfl
        rw [hcons]
        exact List.cons_ne_nil _ _
      have hhead : (strip raw).head? = some 'u' := by
        rw [hsr]
        rfl
      have hhash : ¬ (strip raw).head? = some '#' := by
        rw [hhead]
        decide
      have hdrop3 : (strip raw).drop 3 = dotTypeEq ++ rest := by
        rw [hsr]
        rfl
      have hdrop4 : (strip raw).drop 4 = "type=".data ++ rest := by
        rw [hsr]
        rfl
      have hcond : (udaDot.isPrefixOf (strip raw) &&
          (firstOcc dotTypeEq (strip raw)).isSome) = true := by
        rw [Bool.and_eq_true]
        constructor
        · rw [isPrefixOf_eq_true, hsr]
          exact List.prefix_append _ _
        · apply firstOcc_isSome_of_occ dotTypeEq (strip raw) 3
          rw [hdrop3]
          exact List.prefix_append _ _
      have hfo2 : firstOcc dotTypeEq ((strip raw).drop 4) = none := by
        rw [hdrop4]
        exact hfo
      rw [parsedName_eq_none_case raw hne hhash hcond hfo2, hdrop4]
      rw [hN] at hNne
      rw [if_neg hNne, ← hN]

/-- C8 (amended): a name is extracted from a taskrc text exactly when
some line of the text satisfies the declarative per-line rule
`lineDeclares`: the whitespace-stripped line is `uda.` ++ M ++ `.type=`
++ rest at the first `.type=` occurrence of the remainder and the name
is the whitespace-stripped, non-empty M — or, in the degenerate overlap
case, the line is `uda.type=...` and the whole stripped remainder is
the name. -/
theorem c8_parse_characterization (t N : Str) :
    N ∈ parse_existing_uda_names t ↔ ∃ raw ∈ pySplitlines t, lineDeclares raw N := by
  rw [parse_existing_uda_names, List.mem_filterMap]
  constructor
  · rintro ⟨raw, hraw, hsome⟩
    exact ⟨raw, hraw, (parsedName_iff raw N).mp hsome⟩
  · rintro ⟨raw, hraw, hdecl⟩
    exact ⟨raw, hraw, (parsedName_iff raw N).mpr hdecl⟩

/-! ## Claim C5 -/

theorem mem_dedupStr (a : String) (l : List String) : a ∈ dedupStr l ↔ a ∈ l := by
  induction l with
  | nil => rfl
  | cons x rest ih =>
    rw [dedupStr]
    by_cases hx : x ∈ rest
    · rw [if_pos hx, ih]
      constructor
      · exact List.mem_cons_of_mem x
      · intro h
        rcases List.mem_cons.mp h with rfl | h2
        · exact hx
        · exact h2
    · rw [if_neg hx]
      constructor
      · intro h
        rcases List.mem_cons.mp h with rfl | h2
        · exact List.mem_cons_self a rest
        · exact List.mem_cons_of_mem x (ih.mp h2)
      · intro h
        rcases List.mem_cons.mp h with rfl | h2
        · exact List.mem_cons_self a (dedupStr rest)
        · exact List.mem_cons_of_mem x (ih.mpr h2)

theorem mem_insertStr (a x : String) (l : List String) :
    a ∈ insertStr x l ↔ a = x ∨ a ∈ l := by
  induction l with
  | nil => simp [insertStr]
  | cons y rest ih =>
    rw [insertStr]
    by_cases h : strLeB x.data y.data = true
    · rw [if_pos h]
      simp [List.mem_cons]
    · rw [if_neg h]
      rw [List.mem_cons, ih, List.mem_cons]
      tauto

theorem mem_sortStrings (a : String) (l : List String) :
    a ∈ sortStrings l ↔ a ∈ l := by
  induction l with
  | nil => rfl
  | cons x rest ih =>
    rw [sortStrings, mem_insertStr, ih, List.mem_cons]

theorem mem_sortedNub (a : String) (l : List String) :
    a ∈ sortedNub l ↔ a ∈ l := by
  rw [sortedNub, mem_sortStrings, mem_dedupStr]

theorem mem_driftNames (t : Str) (m : List UdaSpec) (nm : String) :
    nm ∈ driftNames t m ↔
      nm ∈ (parse_existing_uda_names t).map String.mk ∧
        nm ∉ m.map UdaSpec.name := by
  rw [driftNames, mem_sortedNub, List.mem_filter]
  simp

theorem sync_strict_drift (t : Str) (sl : List (List UdaSpec)) (m : List UdaSpec)
    (hm : merge_uda_specs sl = .ok m) (hne : driftNames t m ≠ []) :
    sync_taskrc_udas t sl true = .error (.drift (driftNames t m)) := by
  unfold sync_taskrc_udas
  rw [hm]
  show (if (true && !(driftNames t m).isEmpty) = true
      then Except.error (SyncError.drift (driftNames t m))
      else Except.ok (SyncResult.mk (upsert_uda_block t (render_taskrc_udas m))
        (driftNames t m) (upsert_uda_block t (render_taskrc_udas m) != t)))
    = .error (.drift (driftNames t m))
  have hcond : (true && !(driftNames t m).isEmpty) = true := by
    cases hdn : driftNames t m with
    | nil => exact absurd hdn hne
    | cons x rest => rfl
  rw [if_pos hcond]

theorem sync_strict_nodrift (t : Str) (sl : List (List UdaSpec)) (m : List UdaSpec)
    (hm : merge_uda_specs sl = .ok m) (hemp : driftNames t m = []) :
    sync_taskrc_udas t sl true
      = .ok ⟨upsert_uda_block t (render_taskrc_udas m), driftNames t m,
             upsert_uda_block t (render_taskrc_udas m) != t⟩ := by
  unfold sync_taskrc_udas
  rw [hm]
  show (if (true && !(driftNames t m).isEmpty) = true
      then Except.error (SyncError.drift (driftNames t m))
      else Except.ok (SyncResult.mk (upsert_uda_block t (render_taskrc_udas m))
        (driftNames t m) (upsert_uda_block t (render_taskrc_udas m) != t)))
    = .ok ⟨upsert_uda_block t (render_taskrc_udas m), driftNames t m,
        upsert_uda_block t (render_taskrc_udas m) != t⟩
  have hcond : (true && !(driftNames t m).isEmpty) = false := by
    rw [hemp]
    rfl
  rw [hcond]
  rfl

theorem specLines_mem_shape (s : UdaSpec) (ln : Str) (hln : ln ∈ specLines s) :
    ln = udaDot ++ s.name.data ++ dotTypeEq ++ s.type.data ∨
    (∃ l, s.label = some l ∧
      ln = udaDot ++ s.name.data ++ ".label=".data ++ l.data) ∨
    (∃ vs, s.values = some vs ∧
      ln = udaDot ++ s.name.data ++ ".values=".data ++
        (String.intercalate "," vs).data) ∨
    (∃ us p, s.urgency = some us ∧ p ∈ us ∧
      ln = "urgency.uda.".data ++ s.name.data ++ ".".data ++ p.1.data ++
        ".coefficient=".data ++ (toString p.2).data) := by
  rw [specLines] at hln
  rcases List.mem_cons.mp hln with rfl | htail
  · left
    rfl
  rcases List.mem_append.mp htail with hlv | hurg
  · rcases List.mem_append.mp hlv with hlab | hval
    · right
      left
      cases hl : s.label with
      | none =>
        rw [hl] at hlab
        simp at hlab
      | some l =>
        rw [hl] at hlab
        have hlab2 : ln ∈ (if l = "" then ([] : List Str)
            else [udaDot ++ s.name.data ++ ".label=".data ++ l.data]) := hlab
        by_cases hemp : l = ""
        · rw [if_pos hemp] at hlab2
          simp at hlab2
        · rw [if_neg hemp] at hlab2
          exact ⟨l, rfl, List.mem_singleton.mp hlab2⟩
    · right
      right
      left
      cases hv : s.values with
      | none =>
        rw [hv] at hval
        simp at hval
      | some vs =>
        rw [hv] at hval
        have hval2 : ln ∈ (if vs = [] then ([] : List Str)
            else [udaDot ++ s.name.data ++ ".values=".data ++
              (String.intercalate "," vs).data]) := hval
        by_cases hemp : vs = []
        · rw [if_pos hemp] at hval2
          simp at hval2
        · rw [if_neg hemp] at hval2
          exact ⟨vs, rfl, List.mem_singleton.mp hval2⟩
  · right
    right
    right
    cases hu : s.urgency with
    | none =>
      rw [hu] at hurg
      simp at hurg
    | some us =>
      rw [hu] at hurg
      have hurg2 : ln ∈ (if us = [] then ([] : List Str)
          else us.map (fun p =>
            "urgency.uda.".data ++ s.name.data ++ ".".data ++ p.1.data ++
              ".coefficient=".data ++ (toString p.2).data)) := hurg
      by_cases hemp : us = []
      · rw [if_pos hemp] at hurg2
        simp at hurg2
      · rw [if_neg hemp] at hurg2
        obtain ⟨p, hp, hpe⟩ := List.mem_map.mp hurg2
        exact ⟨us, p, rfl, hp, hpe.symm⟩

theorem specLines_head_u (s : UdaSpec) (ln : Str) (hln : ln ∈ specLines s) :
    ln.head? = some 'u' := by
  rcases specLines_mem_shape s ln hln with rfl | ⟨l, _, rfl⟩ | ⟨vs, _, rfl⟩ |
    ⟨us, p, _, _, rfl⟩ <;> rfl

theorem strip_eq_self_of_clean (l : Str) (hh : l.head? = some 'u')
    (ht : cleanTailB l = true) : strip l = l := by
  rw [strip, rstrip_eq_self_of_cleanTail l ht]
  cases l with
  | nil => rfl
  | cons c rest =>
    have : c = 'u' := by
      have := hh
      simp at this
      exact this
    rw [this, lstrip, List.dropWhile_cons, if_neg (by decide)]

theorem parsedName_typeLine (s : UdaSpec) (hcl : specCleanForParse s) :
    parsedNameOfLine (udaDot ++ s.name.data ++ dotTypeEq ++ s.type.data)
      = some s.name.data := by
  obtain ⟨hstrip, hne, hfo, hlines, _⟩ := hcl
  have hmem : (udaDot ++ s.name.data ++ dotTypeEq ++ s.type.data) ∈ specLines s := by
    rw [specLines]
    exact List.mem_cons_self _ _
  have hsl : strip (udaDot ++ s.name.data ++ dotTypeEq ++ s.type.data)
      = udaDot ++ s.name.data ++ dotTypeEq ++ s.type.data :=
    strip_eq_self_of_clean _ (specLines_head_u s _ hmem) (hlines _ hmem).2
  apply (parsedName_iff _ _).mpr
  left
  refine ⟨s.name.data, s.type.data, ?_, ?_, hstrip.symm, ?_⟩
  · rw [hsl]
    simp [List.append_assoc]
  · exact hfo
  · exact hne

theorem parsedName_nonTypeLine (s : UdaSpec) (hcl : specCleanForParse s) (ln : Str)
    (hln : ln ∈ (specLines s).drop 1) : parsedNameOfLine ln = none := by
  obtain ⟨_, _, _, hlines, hrest⟩ := hcl
  have hmem : ln ∈ specLines s := by
    have h1 : (specLines s).drop 1 <:+ specLines s := List.drop_suffix 1 _
    exact h1.subset hln
  have hsl : strip ln = ln :=
    strip_eq_self_of_clean _ (specLines_head_u s _ hmem) (hlines _ hmem).2
  have hfo : firstOcc dotTypeEq ln = none := hrest ln hln
  rw [parsedNameOfLine]
  by_cases h0 : strip ln = []
  · rw [if_pos h0]
  · rw [if_neg h0]
    by_cases h1 : (strip ln).head? = some '#'
    · rw [if_pos h1]
    · rw [if_neg h1]
      have hcond : ¬ (udaDot.isPrefixOf (strip ln) &&
          (firstOcc dotTypeEq (strip ln)).isSome) = true := by
        rw [hsl, hfo]
        simp
      rw [if_neg hcond]

theorem flatSep_cons_cons (s r : UdaSpec) (rs : List UdaSpec) :
    flatSep (s :: r :: rs) = specLines s ++ ([] :: flatSep (r :: rs)) := rfl

theorem joinBlankSep_eq_joinNL_flatSep (l : List UdaSpec) :
    joinBlankSep (l.map (fun s => joinNL (specLines s))) = joinNL (flatSep l) := by
  induction l with
  | nil => rfl
  | cons s rest ih =>
    cases hre : rest with
    | nil => rfl
    | cons r rs =>
      rw [← hre]
      have hrne : rest ≠ [] := by rw [hre]; exact List.cons_ne_nil r rs
      have hmapne : rest.map (fun s => joinNL (specLines s)) ≠ [] := by
        rw [hre]
        exact List.cons_ne_nil _ _
      have hfsne : flatSep rest ≠ [] := by
        rw [hre]
        cases rs with
        | nil => exact specLines_ne_nil r
        | cons q qs =>
          rw [flatSep_cons_cons]
          simp [specLines_ne_nil]
      have hlhs : joinBlankSep ((s :: rest).map (fun s => joinNL (specLines s)))
          = joinNL (specLines s) ++ '\n' :: '\n' ::
              joinBlankSep (rest.map (fun s => joinNL (specLines s))) := by
        rw [List.map_cons, hre, List.map_cons, joinBlankSep_cons_cons]
      rw [hlhs, ih]
      have hrhs : flatSep (s :: rest) = specLines s ++ ([] :: flatSep rest) := by
        rw [hre]
        exact flatSep_cons_cons s r rs
      rw [hrhs, joinNL_append_ne _ _ (specLines_ne_nil s) (List.cons_ne_nil _ _),
        joinNL_cons_ne [] _ hfsne]
      rfl

theorem splitNL_ne_nil (l : Str) : splitNL l ≠ [] := by
  cases l with
  | nil => exact List.cons_ne_nil _ _
  | cons c rest =>
    rw [splitNL]
    by_cases h : c = '\n'
    · rw [if_pos h]
      exact List.cons_ne_nil _ _
    · rw [if_neg h]
      cases hs : splitNL rest with
      | nil => exact List.cons_ne_nil _ _
      | cons a as => exact List.cons_ne_nil _ _

theorem splitNL_nlfree_append (x r : Str) (hx : ∀ c ∈ x, c ≠ '\n') :
    splitNL (x ++ '\n' :: r) = x :: splitNL r := by
  induction x with
  | nil =>
    rw [List.nil_append, splitNL, if_pos rfl]
  | cons c x' ih =>
    rw [List.cons_append, splitNL,
      if_neg (hx c (List.mem_cons_self c x')),
      ih (fun d hd => hx d (List.mem_cons_of_mem c hd))]

theorem splitNL_joinNL (ls : List Str) (hne : ls ≠ [])
    (hnl : ∀ ln ∈ ls, ∀ c ∈ ln, c ≠ '\n') :
    splitNL (joinNL ls ++ ['\n']) = ls ++ [[]] := by
  induction ls with
  | nil => exact absurd rfl hne
  | cons x rest ih =>
    cases hre : rest with
    | nil =>
      show splitNL (x ++ '\n' :: []) = [x, []]
      rw [splitNL_nlfree_append x [] (hnl x (List.mem_cons_self x rest))]
      rfl
    | cons r rs =>
      rw [← hre]
      have hrne : rest ≠ [] := by rw [hre]; exact List.cons_ne_nil r rs
      rw [joinNL_cons_ne x rest hrne]
      have hshape : x ++ '\n' :: joinNL rest ++ ['\n']
          = x ++ '\n' :: (joinNL rest ++ ['\n']) := by simp
      rw [hshape, splitNL_nlfree_append x _ (hnl x (List.mem_cons_self x rest)),
        ih hrne (fun ln hln => hnl ln (List.mem_cons_of_mem x hln))]
      rfl

theorem pySplitlines_joinNL (ls : List Str) (hne : ls ≠ [])
    (hnl : ∀ ln ∈ ls, ∀ c ∈ ln, c ≠ '\n') :
    pySplitlines (joinNL ls ++ ['\n']) = ls := by
  rw [pySplitlines]
  have h1 : joinNL ls ++ ['\n'] ≠ [] := by simp
  rw [if_neg h1]
  have h2 : (joinNL ls ++ ['\n']).getLast? = some '\n' := by
    rw [List.getLast?_concat]
  rw [if_pos h2, splitNL_joinNL ls hne hnl]
  rw [List.dropLast_concat]

theorem flatSep_mem (l : List UdaSpec) (ln : Str) (hln : ln ∈ flatSep l) :
    ln = [] ∨ ∃ s ∈ l, ln ∈ specLines s := by
  induction l with
  | nil => simp [flatSep] at hln
  | cons s rest ih =>
    cases rest with
    | nil =>
      right
      exact ⟨s, List.mem_cons_self s [], hln⟩
    | cons r rs =>
      rw [flatSep_cons_cons] at hln
      rcases List.mem_append.mp hln with h1 | h2
      · right
        exact ⟨s, List.mem_cons_self s (r :: rs), h1⟩
      · rcases List.mem_cons.mp h2 with rfl | h3
        · left
          rfl
        · rcases ih h3 with h4 | ⟨u, hu, hlu⟩
          · left
            exact h4
          · right
            exact ⟨u, List.mem_cons_of_mem s hu, hlu⟩

theorem parse_render_subset (specs : List UdaSpec)
    (hcl : ∀ s ∈ specs, specCleanForParse s) :
    ∀ nm ∈ parse_existing_uda_names (render_taskrc_udas specs),
      String.mk nm ∈ specs.map UdaSpec.name := by
  intro nm hnm
  by_cases hsp : specs = []
  · rw [hsp] at hnm
    have hp : parse_existing_uda_names (render_taskrc_udas []) = [] := rfl
    rw [hp] at hnm
    simp at hnm
  · have hspne : specs ≠ [] := hsp
    have hsortne : sortByName specs ≠ [] := by
      intro h0
      have hlen := (sortByName_perm specs).length_eq
      rw [h0] at hlen
      exact hspne (List.length_eq_zero.mp hlen.symm)
    have hclS : ∀ s ∈ sortByName specs, specCleanForParse s :=
      fun s hs => hcl s ((sortByName_perm specs).mem_iff.mp hs)
    have hrender : render_taskrc_udas specs
        = joinNL (flatSep (sortByName specs)) ++ ['\n'] := by
      rw [render_taskrc_udas,
        show flatLines specs = flatOf (sortByName specs) from rfl,
        render_core (sortByName specs)
          (fun s hs ln hln => ((hclS s hs).2.2.2.1 ln hln).2),
        joinBlankSep_eq_joinNL_flatSep]
    have hnlfree : ∀ ln ∈ flatSep (sortByName specs), ∀ c ∈ ln, c ≠ '\n' := by
      intro ln hln c hc
      rcases flatSep_mem _ ln hln with rfl | ⟨s, hs, hlns⟩
      · simp at hc
      · exact ((hclS s hs).2.2.2.1 ln hlns).1 c hc
    have hflatne : flatSep (sortByName specs) ≠ [] := by
      cases hso : sortByName specs with
      | nil => exact absurd hso hsortne
      | cons a as =>
        cases as with
        | nil => exact specLines_ne_nil a
        | cons b bs =>
          rw [flatSep_cons_cons]
          simp [specLines_ne_nil]
    have hlines : pySplitlines (render_taskrc_udas specs)
        = flatSep (sortByName specs) := by
      rw [hrender, pySplitlines_joinNL _ hflatne hnlfree]
    rw [parse_existing_uda_names, hlines, List.mem_filterMap] at hnm
    obtain ⟨raw, hraw, hsome⟩ := hnm
    rcases flatSep_mem _ raw hraw with rfl | ⟨s, hs, hlns⟩
    · rw [show parsedNameOfLine [] = none from rfl] at hsome
      exact Option.noConfusion hsome
    · have hcls := hclS s hs
      have hsmem : s ∈ specs := (sortByName_perm specs).mem_iff.mp hs
      have hdec : specLines s
          = (udaDot ++ s.name.data ++ dotTypeEq ++ s.type.data)
            :: (specLines s).drop 1 := rfl
      rw [hdec] at hlns
      rcases List.mem_cons.mp hlns with rfl | htl
      · rw [parsedName_typeLine s hcls] at hsome
        have hnmeq : nm = s.name.data := (Option.some.inj hsome).symm
        rw [hnmeq, show String.mk s.name.data = s.name from rfl]
        exact List.mem_map.mpr ⟨s, hsmem, rfl⟩
      · rw [parsedName_nonTypeLine s hcls raw htl] at hsome
        exact Option.noConfusion hsome

/-- C5, counterexample: with a registry whose `sprint` label smuggles a
`.type=` substring, the name `sprint.label=Boo` is drift (declared in
the file, generated by no spec) and yet the freshly generated block
declares that very name again by the parsing rule — the generated block
does contain a drifted name. -/
theorem c5_counterexample :
    ("sprint.label=Boo" : String) ∈ driftNames c5taskrc [c5spec] ∧
    ("sprint.label=Boo" : String) ∈
      (parse_existing_uda_names (render_taskrc_udas [c5spec])).map String.mk :=
  ⟨by decide, by decide⟩

/-- C5 (amended): drift is exactly the set of names declared in the
file and absent from the merged registry; when strict and drift is
non-empty the run fails with a drift error naming the sorted orphaned
names and the file text is unchanged; otherwise the run proceeds,
returning the drift as its non-fatal warning list; and — provided no
registry entry smuggles a `.type=` substring or newline into its
rendered lines — every name the generated block declares is a registry
name, hence never a drifted one. -/
theorem c5_drift (t : Str) (sl : List (List UdaSpec)) (m : List UdaSpec)
    (hm : merge_uda_specs sl = .ok m) :
    (∀ nm, nm ∈ driftNames t m ↔
      (nm ∈ (parse_existing_uda_names t).map String.mk ∧
        nm ∉ m.map UdaSpec.name)) ∧
    (driftNames t m ≠ [] →
      sync_taskrc_udas t sl true = .error (.drift (driftNames t m)) ∧
      syncText t sl true = t) ∧
    (sync_taskrc_udas t sl false
      = .ok ⟨upsert_uda_block t (render_taskrc_udas m), driftNames t m,
             upsert_uda_block t (render_taskrc_udas m) != t⟩) ∧
    ((∀ s ∈ m, specCleanForParse s) →
      ∀ nm ∈ parse_existing_uda_names (render_taskrc_udas m),
        String.mk nm ∉ driftNames t m) := by
  refine ⟨mem_driftNames t m, ?_, ?_, ?_⟩
  · intro hne
    refine ⟨sync_strict_drift t sl m hm hne, ?_⟩
    rw [syncText, sync_strict_drift t sl m hm hne]
  · exact sync_ok_of_merge t sl m hm
  · intro hcl nm hnm hdrift
    have hgen := parse_render_subset m hcl nm hnm
    exact ((mem_driftNames t m (String.mk nm)).mp hdrift).2 hgen

/-- C5, witness: a file pre-declaring `legacy` that no spec generates —
the drift is computed, strict mode fails with a drift error naming it,
and the clean `sprint` registry passes the block-cleanliness check. -/
theorem c5_drift_witness :
    merge_uda_specs [[sprintSpec]] = .ok [sprintSpec] ∧
    driftNames "uda.legacy.type=string\n".data [sprintSpec] = ["legacy"] ∧
    sync_taskrc_udas "uda.legacy.type=string\n".data [[sprintSpec]] true
      = .error (.drift (driftNames "uda.legacy.type=string\n".data [sprintSpec])) ∧
    (∀ s ∈ [sprintSpec], specCleanForParse s) :=
  ⟨rfl, by decide,
    ((c5_drift "uda.legacy.type=string\n".data [[sprintSpec]] [sprintSpec]
      rfl).2.1 (by decide)).1, by decide⟩

end Taskdantic
